import Mathlib

/-!
Verification development for the aptly core: the package query engine
(src/deb/query.go) and the publish pipeline (src/debian/publish.go).

The query tree, its `Matches` / `Fast` / `Query` operations and the publish
orchestration are translated directly from the Go source.  Collaborator code
that lives outside src/ (Package, PackageList, Stanza, version comparison,
filesystem and signer) is modelled from the specification; every such
definition carries a doc comment starting with `Modelled from the spec:`.
Go panics in query evaluation are modelled with `Except QErr`.
-/

namespace Aptly

/-- Modelled from the spec: ChecksumInfo is size plus MD5/SHA1/SHA256 digests
of one generated artifact (utils package, not under src/). -/
structure ChecksumInfo where
  size : Nat
  md5 : String
  sha1 : String
  sha256 : String
  deriving DecidableEq

/-- Modelled from the spec: a Package is an immutable record with name,
version, architecture and the control-field mapping (deb/package.go is not
under src/); the original stanza order of the fields is preserved. -/
structure Package where
  name : String
  version : String
  architecture : String
  fields : List (String × String)
  deriving DecidableEq

/-- Modelled from the spec: the composite PackageList key "architecture name
version"; the leading "P" and the exact concatenation are evident from the
lookup `list.packages["P"+q.Arch+" "+q.Pkg+" "+q.Version]` in
src/deb/query.go. -/
def Package.key (p : Package) : String :=
  "P" ++ p.architecture ++ " " ++ p.name ++ " " ++ p.version

/-- Modelled from the spec: control-field lookup by name (GetField on
Package); a missing field reads as the empty string. -/
def Package.getField (p : Package) (f : String) : String :=
  match p.fields.find? (fun kv => kv.1 == f) with
  | some kv => kv.2
  | none => ""

/-- Modelled from the spec: the architecture-match rule — the special value
"all" matches every architecture (Package.MatchesArchitecture, not under
src/). -/
def matchesArchitecture (p : Package) (target : String) : Bool :=
  p.architecture == target || p.architecture == "all"

/-- Modelled from the spec: version relation constants from deb/version.go
(not under src/), numbered in the order the spec lists them. -/
def VersionDontCare : Nat := 0

/-- Relation constant: equal. -/
def VersionEqual : Nat := 1

/-- Relation constant: greater. -/
def VersionGreater : Nat := 2

/-- Relation constant: greater or equal. -/
def VersionGreaterOrEqual : Nat := 3

/-- Relation constant: less. -/
def VersionLess : Nat := 4

/-- Relation constant: less or equal. -/
def VersionLessOrEqual : Nat := 5

/-- Relation constant: shell-glob pattern match. -/
def VersionPatternMatch : Nat := 6

/-- Relation constant: regexp match (unimplemented in the code). -/
def VersionRegexp : Nat := 7

/-- Modelled from the spec: a Dependency is a target package name, a relation
and a version operand (deb/package.go, not under src/). -/
structure Dependency where
  pkg : String
  relation : Nat
  version : String
  deriving DecidableEq

/-- Modelled from the spec: a PackageList is a container of packages indexed
by the composite key (deb/list.go is not under src/); the key-uniqueness
invariant is `PackageList.WF` below. -/
structure PackageList where
  packages : List Package
  deriving DecidableEq

/-- Modelled from the spec: a fresh empty package list (NewPackageList). -/
def PackageList.empty : PackageList := ⟨[]⟩

/-- Modelled from the spec: duplicate-safe insertion — a package whose key is
already present is not added again (PackageList.Add, not under src/). -/
def PackageList.add (l : PackageList) (p : Package) : PackageList :=
  if l.packages.any (fun q => q.key == p.key) then l else ⟨l.packages ++ [p]⟩

/-- Modelled from the spec: duplicate-safe append/union of two lists
(PackageList.Append, not under src/). -/
def PackageList.append (l m : PackageList) : PackageList :=
  m.packages.foldl PackageList.add l

/-- Modelled from the spec: the number of packages (PackageList.Len). -/
def PackageList.len (l : PackageList) : Nat := l.packages.length

/-- Modelled from the spec: exact composite-key lookup in the list's map. -/
def PackageList.lookup (l : PackageList) (k : String) : Option Package :=
  l.packages.find? (fun p => p.key == k)

/-- Modelled from the spec: dependency-satisfying search — exactly the
packages of the list satisfying the dependency (PackageList.Search with the
dependency-match collaborator `mD` passed explicitly). -/
def PackageList.search (mD : Dependency → Package → Bool) (l : PackageList)
    (d : Dependency) : List Package :=
  l.packages.filter (fun p => mD d p)

/-- Modelled from the spec: the union of architectures present in the list,
first occurrences kept (PackageList.Architectures). -/
def PackageList.architectures (l : PackageList) : List String :=
  (l.packages.map Package.architecture).dedup

/-- Key uniqueness: the spec's invariant that PackageList keys are unique per
(architecture, name, version) triple. -/
def PackageList.WF (l : PackageList) : Prop :=
  (l.packages.map Package.key).Nodup

instance (l : PackageList) : Decidable l.WF := by
  unfold PackageList.WF; infer_instance

/-- Errors raised by query evaluation: the two panics of FieldQuery.Matches
in src/deb/query.go ("regexp matching not implemented yet" and "unknown
relation"). -/
inductive QErr where
  | notImplemented
  | unknownRelation
  deriving DecidableEq

deriving instance DecidableEq for Except

/-- Modelled from the spec: PackageList.Scan — full linear scan keeping
exactly the packages the predicate accepts, in list order; an evaluation
failure aborts the scan. -/
def scanList (f : Package → Except QErr Bool) :
    List Package → Except QErr (List Package)
  | [] => .ok []
  | p :: rest =>
    match f p with
    | .error e => .error e
    | .ok b =>
      match scanList f rest with
      | .error e => .error e
      | .ok r => .ok (if b then p :: r else r)

/-- Modelled from the spec: Scan on a PackageList, returning a freshly built
result list. -/
def PackageList.scan (l : PackageList) (f : Package → Except QErr Bool) :
    Except QErr PackageList :=
  match scanList f l.packages with
  | .error e => .error e
  | .ok r => .ok ⟨r⟩

/-- The query tree of src/deb/query.go: Or/And/Not/Field/Dependency/Pkg. -/
inductive PackageQuery where
  | or (L R : PackageQuery)
  | and (L R : PackageQuery)
  | not (Q : PackageQuery)
  | field (f : String) (relation : Nat) (value : String)
  | dependency (dep : Dependency)
  | pkg (name version arch : String)
  deriving DecidableEq

/-- FieldQuery.Matches from src/deb/query.go lines 115-146.  `mD` is the
Package.MatchesDependency collaborator and `fpM` stands for the
`filepath.Match`-succeeded-and-matched test of the pattern-match case; both
live outside src/.  The two panics become `QErr` errors. -/
def fieldMatches (mD : Dependency → Package → Bool)
    (fpM : String → String → Bool) (f : String) (rel : Nat) (v : String)
    (p : Package) : Except QErr Bool :=
  if f == "$Version" then
    .ok (mD ⟨p.name, rel, v⟩ p)
  else if f == "$Architecture" && rel == VersionEqual then
    .ok (matchesArchitecture p v)
  else
    let fld := p.getField f
    if rel == VersionDontCare then .ok (fld != "")
    else if rel == VersionEqual then .ok (fld == v)
    else if rel == VersionGreater then .ok (decide (v < fld))
    else if rel == VersionGreaterOrEqual then .ok (decide (v ≤ fld))
    else if rel == VersionLess then .ok (decide (fld < v))
    else if rel == VersionLessOrEqual then .ok (decide (fld ≤ v))
    else if rel == VersionPatternMatch then .ok (fpM v fld)
    else if rel == VersionRegexp then .error .notImplemented
    else .error .unknownRelation

/-- Matches of every query node, from src/deb/query.go: Or short-circuits on
the left (L.Matches || R.Matches), And likewise (L.Matches && R.Matches),
Not negates, Field is `fieldMatches`, Dependency delegates to
MatchesDependency, Pkg compares the exact (name, version, architecture)
triple. -/
def matchesQ (mD : Dependency → Package → Bool)
    (fpM : String → String → Bool) : PackageQuery → Package → Except QErr Bool
  | .or L R, p =>
    match matchesQ mD fpM L p with
    | .error e => .error e
    | .ok true => .ok true
    | .ok false => matchesQ mD fpM R p
  | .and L R, p =>
    match matchesQ mD fpM L p with
    | .error e => .error e
    | .ok false => .ok false
    | .ok true => matchesQ mD fpM R p
  | .not Q, p =>
    match matchesQ mD fpM Q p with
    | .error e => .error e
    | .ok b => .ok (!b)
  | .field f rel v, p => fieldMatches mD fpM f rel v p
  | .dependency d, p => .ok (mD d p)
  | .pkg n v a, p =>
    .ok (p.name == n && p.version == v && p.architecture == a)

/-- Fast of every query node, from src/deb/query.go: Or needs both sides
fast, And needs one, Not and Field are never fast, Dependency and Pkg always
are. -/
def fastQ : PackageQuery → Bool
  | .or L R => fastQ L && fastQ R
  | .and L R => fastQ L || fastQ R
  | .not _ => false
  | .field _ _ _ => false
  | .dependency _ => true
  | .pkg _ _ _ => true

/-- Query of every query node, from src/deb/query.go.  Or: when fast, union
of the two sub-queries, else a full scan.  And: when not fast, a full scan;
else query the fast side and scan its result with the other side's Matches.
Not and Field: always a full scan.  Dependency: the list's native search,
collected into a fresh list.  Pkg: a single composite-key map lookup. -/
def queryQ (mD : Dependency → Package → Bool)
    (fpM : String → String → Bool) :
    PackageQuery → PackageList → Except QErr PackageList
  | .or L R, list =>
    if fastQ (.or L R) then
      match queryQ mD fpM L list with
      | .error e => .error e
      | .ok r1 =>
        match queryQ mD fpM R list with
        | .error e => .error e
        | .ok r2 => .ok (r1.append r2)
    else list.scan (matchesQ mD fpM (.or L R))
  | .and L R, list =>
    if !(fastQ (.and L R)) then list.scan (matchesQ mD fpM (.and L R))
    else if fastQ L then
      match queryQ mD fpM L list with
      | .error e => .error e
      | .ok r1 => r1.scan (matchesQ mD fpM R)
    else
      match queryQ mD fpM R list with
      | .error e => .error e
      | .ok r2 => r2.scan (matchesQ mD fpM L)
  | .not Q, list => list.scan (matchesQ mD fpM (.not Q))
  | .field f rel v, list => list.scan (matchesQ mD fpM (.field f rel v))
  | .dependency d, list =>
    .ok ((PackageList.search mD list d).foldl PackageList.add
      PackageList.empty)
  | .pkg n v a, list =>
    match list.lookup ("P" ++ a ++ " " ++ n ++ " " ++ v) with
    | some p => .ok (PackageList.empty.add p)
    | none => .ok PackageList.empty

/-! The publish pipeline, from src/debian/publish.go.  The filesystem and
signer collaborators are modelled from the spec: the filesystem is a record
of directories, files with contents, and content-addressed pool links; the
signer is a pair of content transformations.  `time.Now()` enters as the
explicit parameter `now`, `repo.ChecksumsForFile` as the parameter `cks`. -/

/-- Modelled from the spec: an ordered field-to-value mapping; assignment
replaces the value of an existing field in place, otherwise appends. -/
def Stanza : Type := List (String × String)

instance : DecidableEq Stanza := by
  unfold Stanza; infer_instance

/-- Modelled from the spec: Stanza assignment (`release[k] = v`). -/
def stanzaSet (st : Stanza) (k v : String) : Stanza :=
  match st with
  | [] => [(k, v)]
  | kv :: rest =>
    if kv.1 == k then (k, v) :: rest else kv :: stanzaSet rest k v

/-- Modelled from the spec: Stanza read with the Go map default of the empty
string for an absent field. -/
def stanzaGetD (st : Stanza) (k : String) : String :=
  match st.find? (fun kv => kv.1 == k) with
  | some kv => kv.2
  | none => ""

/-- Modelled from the spec: deterministic Stanza serialization — one
`Field: value` line per field, in insertion order (Stanza.WriteTo). -/
def stanzaRender (st : Stanza) : String :=
  st.foldl (fun acc kv => acc ++ kv.1 ++ ": " ++ kv.2 ++ "\n") ""

/-- Modelled from the spec: a package's own control stanza
(Package.Stanza, not under src/) is its preserved field paragraph. -/
def packageStanza (p : Package) : Stanza := p.fields

/-- Modelled from the spec: the `%8d` right-justification of a byte size to
eight columns in the Release checksum lines. -/
def rightJustify8 (n : Nat) : String :=
  let s := toString n
  if s.length < 8 then String.mk (List.replicate (8 - s.length) ' ') ++ s
  else s

/-- Modelled from the spec: filesystem paths are joined with "/" as in the
layout of spec section 6 (the dot-segment cleaning of Go's filepath.Join is
not modelled; no path built by the pipeline relies on it). -/
def joinPath (a b : String) : String := a ++ "/" ++ b

/-- Modelled from the spec: the filesystem collaborator's visible state —
created directories, files with content, and the content-addressed pool
links keyed by (path root, component, package key). -/
structure FS where
  dirs : List String
  files : List (String × String)
  poolLinks : List (String × String × String)
  deriving DecidableEq

/-- Modelled from the spec: idempotent directory creation (repo.MkDir). -/
def FS.mkDir (fs : FS) (d : String) : FS :=
  if d ∈ fs.dirs then fs else { fs with dirs := fs.dirs ++ [d] }

/-- Replace the first binding of a key in an association list, else append;
the behaviour of a Go map insert with remembered insertion order. -/
def setAssoc {α : Type} : List (String × α) → String → α → List (String × α)
  | [], k, v => [(k, v)]
  | kv :: rest, k, v =>
    if kv.1 == k then (k, v) :: rest else kv :: setAssoc rest k v

/-- Modelled from the spec: file creation (repo.CreateFile followed by the
buffered writes and flush), recorded as the file's full content. -/
def FS.createFile (fs : FS) (path content : String) : FS :=
  { fs with files := setAssoc fs.files path content }

/-- Modelled from the spec: the content of an existing file (empty if the
file is absent). -/
def FS.readFile (fs : FS) (path : String) : String :=
  match fs.files.find? (fun kv => kv.1 == path) with
  | some kv => kv.2
  | none => ""

/-- Modelled from the spec: utils.CompressFile produces the gzip and bzip2
compressed copies of a file next to it; the compressed bytes themselves are
opaque, so they are tagged renderings of the plain content. -/
def FS.compressFile (fs : FS) (path : String) : FS :=
  let c := fs.readFile path
  (fs.createFile (path ++ ".gz") ("gzip:" ++ c)).createFile
    (path ++ ".bz2") ("bzip2:" ++ c)

/-- Modelled from the spec: Package.LinkFromPool places the package's pool
file under the published root keyed by root and component,
content-addressed, so an existing link is not duplicated. -/
def FS.linkFromPool (fs : FS) (root comp : String) (p : Package) : FS :=
  if (root, comp, p.key) ∈ fs.poolLinks then fs
  else { fs with poolLinks := fs.poolLinks ++ [(root, comp, p.key)] }

/-- Modelled from the spec: the Signer collaborator — detached and clear
signing as content transformations. -/
structure Signer where
  detachedSign : String → String
  clearSign : String → String

/-- Modelled from the spec: a Snapshot is an immutable UUID plus the ordered
reference list naming exact package versions. -/
structure Snapshot where
  uuid : String
  refList : List String
  deriving DecidableEq

/-- PublishedRepo from src/debian/publish.go: path root ("Prefix" in the
source), distribution, component, an optional explicit architecture list
(`none` models the Go nil slice) and the held snapshot. -/
structure PublishedRepo where
  root : String
  distribution : String
  component : String
  architectures : Option (List String)
  snapshot : Snapshot
  deriving DecidableEq

/-- Errors returned by Publish before any per-architecture work: the
unresolved-reference, empty-repository and missing-architectures errors of
src/debian/publish.go lines 51-66. -/
inductive PubError where
  | unresolvedRef (r : String)
  | emptyRepo
  | noArchitectures
  deriving DecidableEq

/-- Data a successful Publish determines: the Release stanza, the
generated-files checksum map (in insertion order) and the architecture list
used (after lazy inference). -/
structure PublishResult where
  release : Stanza
  generatedFiles : List (String × ChecksumInfo)
  archList : List String
  deriving DecidableEq

/-- Modelled from the spec: NewPackageListFromRefList materializes the full
package list from the snapshot's reference list via the package collection;
a reference absent from the collection is a fatal error. -/
def newPackageListFromRefList (refs : List String)
    (coll : String → Option Package) : Except String PackageList :=
  match refs with
  | [] => .ok ⟨[]⟩
  | r :: rest =>
    match coll r with
    | none => .error r
    | some p =>
      match newPackageListFromRefList rest coll with
      | .error e => .error e
      | .ok l => .ok ⟨p :: l.packages⟩

/-- The base path `<root>/dists/<distribution>` of publish.go line 44. -/
def pubBasePath (pr : PublishedRepo) : String :=
  joinPath (joinPath pr.root "dists") pr.distribution

/-- The two directory creations that open Publish (publish.go lines 40-48):
`<root>/pool` and `<root>/dists/<distribution>`. -/
def publishDirsFS (pr : PublishedRepo) (fs : FS) : FS :=
  (fs.mkDir (joinPath pr.root "pool")).mkDir (pubBasePath pr)

/-- The relative path `<component>/binary-<arch>/Packages` of publish.go
line 72. -/
def archRelPath (comp arch : String) : String :=
  joinPath (joinPath comp ("binary-" ++ arch)) "Packages"

/-- The per-package streaming loop of publish.go lines 85-104: every package
matching the architecture (honoring the "all" wildcard) is linked into the
pool and its stanza, blank-line terminated, appended to the Packages file
content. -/
def processPackages (root comp arch : String) (pkgs : List Package)
    (st : FS × String) : FS × String :=
  pkgs.foldl
    (fun st p =>
      if matchesArchitecture p arch then
        (st.1.linkFromPool root comp p,
          st.2 ++ stanzaRender (packageStanza p) ++ "\n")
      else st)
    st

/-- One iteration of the per-architecture loop of publish.go lines 71-140:
create the binary-<arch> directory, stream the Packages file, compress it,
and record checksums for the plain, .gz and .bz2 artifacts under their
relative paths. -/
def processArch (cks : String → ChecksumInfo) (root comp basePath : String)
    (list : PackageList) (st : FS × List (String × ChecksumInfo))
    (arch : String) : FS × List (String × ChecksumInfo) :=
  let relativePath := archRelPath comp arch
  let fullPath := joinPath basePath relativePath
  let fs1 := st.1.mkDir (joinPath basePath (joinPath comp ("binary-" ++ arch)))
  let (fs2, content) := processPackages root comp arch list.packages (fs1, "")
  let fs3 := fs2.createFile fullPath content
  let fs4 := fs3.compressFile fullPath
  let gf1 := setAssoc st.2 relativePath (cks fullPath)
  let gf2 := setAssoc gf1 (relativePath ++ ".gz") (cks (fullPath ++ ".gz"))
  let gf3 := setAssoc gf2 (relativePath ++ ".bz2") (cks (fullPath ++ ".bz2"))
  (fs4, gf3)

/-- One checksum line ` <digest> <size right-justified to 8> <path>\n` of
publish.go lines 155-157. -/
def checksumLine (digest : String) (size : Nat) (path : String) : String :=
  " " ++ digest ++ " " ++ rightJustify8 size ++ " " ++ path ++ "\n"

/-- One iteration of the checksum-block loop of publish.go lines 154-158:
append one line to each of the MD5Sum, SHA1 and SHA256 block values. -/
def releaseStep (st : Stanza) (pi : String × ChecksumInfo) : Stanza :=
  let st1 := stanzaSet st "MD5Sum"
    (stanzaGetD st "MD5Sum" ++ checksumLine pi.2.md5 pi.2.size pi.1)
  let st2 := stanzaSet st1 "SHA1"
    (stanzaGetD st1 "SHA1" ++ checksumLine pi.2.sha1 pi.2.size pi.1)
  stanzaSet st2 "SHA256"
    (stanzaGetD st2 "SHA256" ++ checksumLine pi.2.sha256 pi.2.size pi.1)

/-- The Release stanza of publish.go lines 142-158: the fixed header fields
followed by the three checksum blocks accumulated over the generated-files
collection (iterated here in insertion order, a deterministic refinement of
Go's unspecified map order, which the spec flags as unstable). -/
def buildRelease (root dist comp now : String) (archs : List String)
    (gf : List (String × ChecksumInfo)) : Stanza :=
  let st : Stanza := []
  let st := stanzaSet st "Origin" (root ++ " " ++ dist)
  let st := stanzaSet st "Label" (root ++ " " ++ dist)
  let st := stanzaSet st "Codename" dist
  let st := stanzaSet st "Date" now
  let st := stanzaSet st "Components" comp
  let st := stanzaSet st "Architectures" (String.intercalate " " archs)
  let st := stanzaSet st "Description" "Generated by aptly\n"
  let st := stanzaSet st "MD5Sum" "\n"
  let st := stanzaSet st "SHA1" "\n"
  let st := stanzaSet st "SHA256" "\n"
  gf.foldl releaseStep st

/-- The architecture-list resolution of publish.go lines 60-62: when no
explicit list was supplied (the Go nil slice), it is inferred lazily as the
union of architectures present in the materialized list. -/
def inferArchs (pr : PublishedRepo) (list : PackageList) : List String :=
  match pr.architectures with
  | none => list.architectures
  | some a => a

/-- Publish, from src/debian/publish.go lines 39-191: create the pool and
distribution directories, materialize the snapshot, reject an empty list,
infer the architecture list when none was supplied and reject an empty one,
run the per-architecture loop, build and write the Release file, and sign
it.  The final filesystem state is returned together with the outcome, so
the state left behind by a failing run is observable. -/
def publish (cks : String → ChecksumInfo) (now : String)
    (coll : String → Option Package) (sgn : Signer) (pr : PublishedRepo)
    (fs : FS) : FS × Except PubError PublishResult :=
  let fs2 := publishDirsFS pr fs
  match newPackageListFromRefList pr.snapshot.refList coll with
  | .error r => (fs2, .error (.unresolvedRef r))
  | .ok list =>
    if list.len == 0 then (fs2, .error .emptyRepo)
    else
      let archs := inferArchs pr list
      if archs.length == 0 then (fs2, .error .noArchitectures)
      else
        let st := archs.foldl
          (processArch cks pr.root pr.component (pubBasePath pr) list)
          (fs2, [])
        let release :=
          buildRelease pr.root pr.distribution pr.component now archs st.2
        let rc := stanzaRender release
        let rpath := joinPath (pubBasePath pr) "Release"
        let fs4 := st.1.createFile rpath rc
        let fs5 := fs4.createFile (rpath ++ ".gpg") (sgn.detachedSign rc)
        let fs6 := fs5.createFile (joinPath (pubBasePath pr) "InRelease")
          (sgn.clearSign rc)
        (fs6, .ok ⟨release, st.2, archs⟩)

/-- A string with no space character; composite keys join their components
with spaces, so space-freeness is what makes the key unambiguous. -/
def spaceFree (s : String) : Prop := ' ' ∉ s.data

instance (s : String) : Decidable (spaceFree s) := by
  unfold spaceFree; infer_instance

/-- Every package of the list has a space-free architecture and name. -/
def listSpaceFree (L : PackageList) : Prop :=
  ∀ p ∈ L.packages, spaceFree p.architecture ∧ spaceFree p.name

instance (L : PackageList) : Decidable (listSpaceFree L) := by
  unfold listSpaceFree; infer_instance

/-- Every Pkg leaf of the query carries a space-free name and architecture. -/
def querySpaceFree : PackageQuery → Prop
  | .or A B => querySpaceFree A ∧ querySpaceFree B
  | .and A B => querySpaceFree A ∧ querySpaceFree B
  | .not Q => querySpaceFree Q
  | .field _ _ _ => True
  | .dependency _ => True
  | .pkg n _ a => spaceFree n ∧ spaceFree a

instance querySpaceFreeDec : (q : PackageQuery) → Decidable (querySpaceFree q)
  | .or A B => @instDecidableAnd _ _ (querySpaceFreeDec A) (querySpaceFreeDec B)
  | .and A B => @instDecidableAnd _ _ (querySpaceFreeDec A) (querySpaceFreeDec B)
  | .not Q => querySpaceFreeDec Q
  | .field _ _ _ => Decidable.isTrue trivial
  | .dependency _ => Decidable.isTrue trivial
  | .pkg _ _ _ => @instDecidableAnd _ _ inferInstance inferInstance

/-- Concatenation of a list of lines. -/
def concatLines (l : List String) : String := l.foldr (fun a b => a ++ b) ""

/-- The generated-files part of one per-architecture step of publish.go:
the three checksum-map inserts for the plain, .gz and .bz2 Packages paths
(the projection of `processArch` that ignores the filesystem). -/
def gfStep (cks : String → ChecksumInfo) (comp bp : String)
    (gf : List (String × ChecksumInfo)) (arch : String) :
    List (String × ChecksumInfo) :=
  setAssoc
    (setAssoc
      (setAssoc gf (archRelPath comp arch)
        (cks (joinPath bp (archRelPath comp arch))))
      (archRelPath comp arch ++ ".gz")
      (cks (joinPath bp (archRelPath comp arch) ++ ".gz")))
    (archRelPath comp arch ++ ".bz2")
    (cks (joinPath bp (archRelPath comp arch) ++ ".bz2"))

/-- Distinct elements of a list in first-occurrence order, relative to an
already-seen prefix `P`: this is the order in which the per-architecture
loop creates fresh generated-files entries, since re-processing an
architecture only re-inserts the same map entries. -/
def dedupWithin : List String → List String → List String
  | _, [] => []
  | P, a :: rest =>
    if a ∈ P then dedupWithin P rest
    else a :: dedupWithin (P ++ [a]) rest

/-- The generated-files map a successful Publish accumulates: for each
architecture in order, one entry each for the plain, .gz and .bz2 Packages
artifact under its relative path. -/
def expectedGfiles (cks : String → ChecksumInfo) (comp bp : String) :
    List String → List (String × ChecksumInfo)
  | [] => []
  | a :: rest =>
    (archRelPath comp a, cks (joinPath bp (archRelPath comp a))) ::
    (archRelPath comp a ++ ".gz",
      cks (joinPath bp (archRelPath comp a) ++ ".gz")) ::
    (archRelPath comp a ++ ".bz2",
      cks (joinPath bp (archRelPath comp a) ++ ".bz2")) ::
    expectedGfiles cks comp bp rest

/-! Auxiliary facts about character lists and the composite key. -/

theorem tail_split : ∀ (x y u w : List Char), x ++ u = y ++ w →
    u.length ≤ w.length → ∃ t, w = t ++ u := by
  intro x
  induction x with
  | nil =>
    intro y u w h hle
    have h2 : u = y ++ w := by simpa using h
    have h3 : y.length + w.length ≤ w.length := by
      have := congrArg List.length h2
      simp only [List.length_append] at this
      omega
    have hy : y = [] := List.length_eq_zero.mp (by omega)
    subst hy
    exact ⟨[], by simpa using h2.symm⟩
  | cons c x2 ih =>
    intro y u w h hle
    cases y with
    | nil => exact ⟨c :: x2, by simpa using h.symm⟩
    | cons d y2 =>
      simp only [List.cons_append, List.cons.injEq] at h
      exact ih y2 u w h.2 hle

theorem append_tail_absurd {x y u w : List Char} (h : x ++ u = y ++ w)
    (hle : u.length ≤ w.length) (hne : w.drop (w.length - u.length) ≠ u) :
    False := by
  obtain ⟨t, ht⟩ := tail_split x y u w h hle
  apply hne
  rw [ht]
  have hlen : (t ++ u).length - u.length = t.length := by
    simp [List.length_append]
  rw [hlen, List.drop_left]

theorem split_at_space : ∀ (a b u v : List Char), ' ' ∉ a → ' ' ∉ b →
    a ++ ' ' :: u = b ++ ' ' :: v → a = b ∧ u = v := by
  intro a
  induction a with
  | nil =>
    intro b u v _ hb h
    cases b with
    | nil => simpa using h
    | cons d b2 =>
      simp only [List.nil_append, List.cons_append, List.cons.injEq] at h
      exact absurd (by rw [← h.1]; exact List.mem_cons_self _ _) hb
  | cons c a2 ih =>
    intro b u v ha hb h
    cases b with
    | nil =>
      simp only [List.cons_append, List.nil_append, List.cons.injEq] at h
      exact absurd (by rw [h.1]; exact List.mem_cons_self _ _) ha
    | cons d b2 =>
      simp only [List.cons_append, List.cons.injEq] at h
      have ha2 : ' ' ∉ a2 := fun hx => ha (List.mem_cons_of_mem _ hx)
      have hb2 : ' ' ∉ b2 := fun hx => hb (List.mem_cons_of_mem _ hx)
      obtain ⟨he, hu⟩ := ih b2 u v ha2 hb2 h.2
      exact ⟨by rw [h.1, he], hu⟩

theorem key_data (p : Package) : p.key.data =
    'P' :: (p.architecture.data ++ ' ' :: (p.name.data ++ ' ' ::
      p.version.data)) := by
  simp [Package.key, String.data_append]

theorem mkKey_data (a n v : String) :
    ("P" ++ a ++ " " ++ n ++ " " ++ v).data =
    'P' :: (a.data ++ ' ' :: (n.data ++ ' ' :: v.data)) := by
  simp [String.data_append]

/-- The composite key determines the (architecture, name, version) triple as
long as architecture and name contain no space. -/
theorem key_eq_triple {p : Package} {a n v : String}
    (hpa : spaceFree p.architecture) (hpn : spaceFree p.name)
    (ha : spaceFree a) (hn : spaceFree n)
    (h : p.key = "P" ++ a ++ " " ++ n ++ " " ++ v) :
    p.architecture = a ∧ p.name = n ∧ p.version = v := by
  have hd := congrArg String.data h
  rw [key_data, mkKey_data] at hd
  simp only [List.cons.injEq, true_and] at hd
  obtain ⟨harch, hrest⟩ := split_at_space _ _ _ _ hpa ha hd
  obtain ⟨hname, hver⟩ := split_at_space _ _ _ _ hpn hn hrest
  exact ⟨String.ext harch, String.ext hname, String.ext hver⟩

theorem key_of_triple {p : Package} {a n v : String} (ha : p.architecture = a)
    (hn : p.name = n) (hv : p.version = v) :
    p.key = "P" ++ a ++ " " ++ n ++ " " ++ v := by
  rw [Package.key, ha, hn, hv]

/-! Membership facts about PackageList operations. -/

theorem key_inj_of_WF {L : PackageList} (hWF : L.WF) {x y : Package}
    (hx : x ∈ L.packages) (hy : y ∈ L.packages) (h : x.key = y.key) :
    x = y :=
  List.inj_on_of_nodup_map hWF hx hy h

theorem find?_key_eq_some {l : List Package} {k : String} {p : Package}
    (h : l.find? (fun q => q.key == k) = some p) : p ∈ l ∧ p.key = k := by
  refine ⟨List.mem_of_find?_eq_some h, ?_⟩
  have := List.find?_some h
  simpa using this

theorem find?_key_of_mem {l : List Package} {p : Package}
    (hnd : (l.map Package.key).Nodup) (hp : p ∈ l) :
    l.find? (fun q => q.key == p.key) = some p := by
  induction l with
  | nil => cases hp
  | cons q rest ih =>
    simp only [List.map_cons, List.nodup_cons] at hnd
    rcases List.mem_cons.mp hp with hq | hrest
    · subst hq
      simp [List.find?]
    · have hne : (q.key == p.key) = false := by
        refine beq_eq_false_iff_ne.mpr fun he => hnd.1 ?_
        rw [he]
        exact List.mem_map_of_mem Package.key hrest
      simp only [List.find?, hne]
      exact ih hnd.2 hrest

theorem mem_add_of_mem {l : PackageList} {p x : Package}
    (h : x ∈ l.packages) : x ∈ (l.add p).packages := by
  unfold PackageList.add
  split
  · exact h
  · exact List.mem_append_left _ h

theorem mem_add_elim {l : PackageList} {p x : Package}
    (h : x ∈ (l.add p).packages) : x ∈ l.packages ∨ x = p := by
  unfold PackageList.add at h
  split at h
  · exact Or.inl h
  · rcases List.mem_append.mp h with h1 | h1
    · exact Or.inl h1
    · exact Or.inr (by simpa using h1)

theorem mem_add_self {S l : PackageList} {p : Package} (hWF : S.WF)
    (hsub : ∀ x ∈ l.packages, x ∈ S.packages) (hp : p ∈ S.packages) :
    p ∈ (l.add p).packages := by
  unfold PackageList.add
  split
  · rename_i hany
    obtain ⟨q, hq, hqk⟩ := List.any_eq_true.mp hany
    have : q = p := key_inj_of_WF hWF (hsub q hq) hp (by simpa using hqk)
    exact this ▸ hq
  · exact List.mem_append_right _ (List.mem_singleton.mpr rfl)

theorem add_subset {S : List Package} {l : PackageList} {p : Package}
    (hsub : ∀ x ∈ l.packages, x ∈ S) (hp : p ∈ S) :
    ∀ x ∈ (l.add p).packages, x ∈ S := by
  intro x hx
  rcases mem_add_elim hx with h | h
  · exact hsub x h
  · exact h ▸ hp

theorem mem_foldl_add : ∀ (ms : List Package) (acc : PackageList)
    (x : Package), x ∈ (ms.foldl PackageList.add acc).packages →
    x ∈ acc.packages ∨ x ∈ ms := by
  intro ms
  induction ms with
  | nil => intro acc x h; exact Or.inl h
  | cons m rest ih =>
    intro acc x h
    rcases ih (acc.add m) x h with h1 | h1
    · rcases mem_add_elim h1 with h2 | h2
      · exact Or.inl h2
      · exact Or.inr (h2 ▸ List.mem_cons_self _ _)
    · exact Or.inr (List.mem_cons_of_mem _ h1)

theorem foldl_add_subset {S : List Package} : ∀ (ms : List Package)
    (acc : PackageList), (∀ x ∈ acc.packages, x ∈ S) → (∀ x ∈ ms, x ∈ S) →
    ∀ x ∈ (ms.foldl PackageList.add acc).packages, x ∈ S := by
  intro ms
  induction ms with
  | nil => intro acc hacc _ x hx; exact hacc x hx
  | cons m rest ih =>
    intro acc hacc hms x hx
    refine ih (acc.add m) (add_subset hacc (hms m (List.mem_cons_self _ _)))
      (fun y hy => hms y (List.mem_cons_of_mem _ hy)) x hx

theorem mem_foldl_add_iff {S : PackageList} (hWF : S.WF) :
    ∀ (ms : List Package) (acc : PackageList),
    (∀ x ∈ acc.packages, x ∈ S.packages) → (∀ x ∈ ms, x ∈ S.packages) →
    ∀ x, x ∈ (ms.foldl PackageList.add acc).packages ↔
      x ∈ acc.packages ∨ x ∈ ms := by
  intro ms
  induction ms with
  | nil => intro acc _ _ x; simp
  | cons m rest ih =>
    intro acc hacc hms x
    have hmS : m ∈ S.packages := hms m (List.mem_cons_self _ _)
    have haddS : ∀ y ∈ (acc.add m).packages, y ∈ S.packages :=
      add_subset hacc hmS
    have hrestS : ∀ y ∈ rest, y ∈ S.packages :=
      fun y hy => hms y (List.mem_cons_of_mem _ hy)
    rw [List.foldl_cons, ih (acc.add m) haddS hrestS x]
    constructor
    · rintro (h | h)
      · rcases mem_add_elim h with h1 | h1
        · exact Or.inl h1
        · exact Or.inr (h1 ▸ List.mem_cons_self _ _)
      · exact Or.inr (List.mem_cons_of_mem _ h)
    · rintro (h | h)
      · exact Or.inl (mem_add_of_mem h)
      · rcases List.mem_cons.mp h with h1 | h1
        · refine Or.inl ?_
          rw [h1]
          exact mem_add_self hWF hacc hmS
        · exact Or.inr h1

theorem foldl_add_empty_eq : ∀ (ms : List Package) (acc : PackageList),
    ((acc.packages ++ ms).map Package.key).Nodup →
    (ms.foldl PackageList.add acc).packages = acc.packages ++ ms := by
  intro ms
  induction ms with
  | nil => intro acc _; simp
  | cons m rest ih =>
    intro acc hnd
    have hnotin : (acc.packages.any (fun q => q.key == m.key)) = false := by
      rw [List.any_eq_false]
      intro q hq
      simp only [beq_iff_eq]
      intro he
      have h1 : m.key ∈ (acc.packages.map Package.key) := by
        rw [← he]; exact List.mem_map_of_mem Package.key hq
      have h2 : ((acc.packages ++ m :: rest).map Package.key).Nodup := hnd
      rw [List.map_append, List.map_cons] at h2
      have := (List.nodup_append.mp h2).2.2
      exact this h1 (List.mem_cons_self _ _)
    have hstep : acc.add m = ⟨acc.packages ++ [m]⟩ := by
      unfold PackageList.add
      rw [hnotin]
      simp
    rw [List.foldl_cons, hstep, ih ⟨acc.packages ++ [m]⟩ (by simpa using hnd)]
    simp

/-! Facts about scanList and PackageList.scan. -/

theorem scanList_ok_mem {f : Package → Except QErr Bool} :
    ∀ {l r : List Package}, scanList f l = .ok r →
    ∀ x, x ∈ r ↔ x ∈ l ∧ f x = .ok true := by
  intro l
  induction l with
  | nil =>
    intro r h x
    simp only [scanList] at h
    cases h
    simp
  | cons p rest ih =>
    intro r h x
    simp only [scanList] at h
    cases hf : f p with
    | error e => rw [hf] at h; cases h
    | ok b =>
      rw [hf] at h
      cases hrest : scanList f rest with
      | error e => rw [hrest] at h; cases h
      | ok r2 =>
        rw [hrest] at h
        cases b with
        | true =>
          have hr : r = p :: r2 := by cases h; rfl
          subst hr
          simp only [List.mem_cons, ih hrest x]
          constructor
          · rintro (he | ⟨hm, hfx⟩)
            · exact ⟨Or.inl he, he ▸ hf⟩
            · exact ⟨Or.inr hm, hfx⟩
          · rintro ⟨he | hm, hfx⟩
            · exact Or.inl he
            · exact Or.inr ⟨hm, hfx⟩
        | false =>
          have hr : r = r2 := by cases h; rfl
          subst hr
          rw [ih hrest x]
          simp only [List.mem_cons]
          constructor
          · rintro ⟨hm, hfx⟩
            exact ⟨Or.inr hm, hfx⟩
          · rintro ⟨he | hm, hfx⟩
            · rw [he] at hfx
              rw [hfx] at hf
              cases hf
            · exact ⟨hm, hfx⟩

theorem scanList_ok_evals {f : Package → Except QErr Bool} :
    ∀ {l r : List Package}, scanList f l = .ok r →
    ∀ x ∈ l, ∃ b, f x = .ok b := by
  intro l
  induction l with
  | nil => intro r _ x hx; cases hx
  | cons p rest ih =>
    intro r h x hx
    simp only [scanList] at h
    cases hf : f p with
    | error e => rw [hf] at h; cases h
    | ok b =>
      rw [hf] at h
      cases hrest : scanList f rest with
      | error e => rw [hrest] at h; cases h
      | ok r2 =>
        rcases List.mem_cons.mp hx with he | hm
        · exact ⟨b, he ▸ hf⟩
        · exact ih hrest x hm

theorem scan_ok_mem {l : PackageList} {f : Package → Except QErr Bool}
    {r : PackageList} (h : l.scan f = .ok r) :
    ∀ x, x ∈ r.packages ↔ x ∈ l.packages ∧ f x = .ok true := by
  unfold PackageList.scan at h
  cases hs : scanList f l.packages with
  | error e => rw [hs] at h; cases h
  | ok r2 =>
    rw [hs] at h
    cases h
    exact scanList_ok_mem hs

theorem scan_ok_evals {l : PackageList} {f : Package → Except QErr Bool}
    {r : PackageList} (h : l.scan f = .ok r) :
    ∀ x ∈ l.packages, ∃ b, f x = .ok b := by
  unfold PackageList.scan at h
  cases hs : scanList f l.packages with
  | error e => rw [hs] at h; cases h
  | ok r2 => exact scanList_ok_evals hs

/-! The three core facts about query execution: results stay inside the
source list, every package whose Matches evaluates to true is found, and no
found package evaluates to false. -/

theorem querySub (mD : Dependency → Package → Bool)
    (fpM : String → String → Bool) : ∀ (q : PackageQuery) (L r : PackageList),
    queryQ mD fpM q L = .ok r → ∀ x ∈ r.packages, x ∈ L.packages := by
  intro q
  induction q with
  | or A B ihA ihB =>
    intro L r h x hx
    simp only [queryQ] at h
    split at h
    · cases hA : queryQ mD fpM A L with
      | error e => rw [hA] at h; cases h
      | ok r1 =>
        rw [hA] at h
        cases hB : queryQ mD fpM B L with
        | error e => rw [hB] at h; cases h
        | ok r2 =>
          rw [hB] at h
          cases h
          unfold PackageList.append at hx
          rcases mem_foldl_add r2.packages r1 x hx with h1 | h1
          · exact ihA L r1 hA x h1
          · exact ihB L r2 hB x h1
    · exact ((scan_ok_mem h x).mp hx).1
  | and A B ihA ihB =>
    intro L r h x hx
    simp only [queryQ] at h
    split at h
    · exact ((scan_ok_mem h x).mp hx).1
    · split at h
      · cases hA : queryQ mD fpM A L with
        | error e => rw [hA] at h; cases h
        | ok r1 =>
          rw [hA] at h
          exact ihA L r1 hA x ((scan_ok_mem h x).mp hx).1
      · cases hB : queryQ mD fpM B L with
        | error e => rw [hB] at h; cases h
        | ok r2 =>
          rw [hB] at h
          exact ihB L r2 hB x ((scan_ok_mem h x).mp hx).1
  | not Q ihQ =>
    intro L r h x hx
    simp only [queryQ] at h
    exact ((scan_ok_mem h x).mp hx).1
  | field f rel v =>
    intro L r h x hx
    simp only [queryQ] at h
    exact ((scan_ok_mem h x).mp hx).1
  | dependency d =>
    intro L r h x hx
    simp only [queryQ] at h
    cases h
    rcases mem_foldl_add _ _ x hx with h1 | h1
    · exact absurd h1 (by simp [PackageList.empty])
    · exact List.mem_of_mem_filter h1
  | pkg n v a =>
    intro L r h x hx
    simp only [queryQ, PackageList.lookup] at h
    cases hfind : L.packages.find?
        (fun p => p.key == ("P" ++ a ++ " " ++ n ++ " " ++ v)) with
    | none =>
      rw [hfind] at h
      cases h
      exact absurd hx (by simp [PackageList.empty])
    | some p =>
      rw [hfind] at h
      cases h
      have hp := find?_key_eq_some hfind
      rcases mem_add_elim hx with h1 | h1
      · exact absurd h1 (by simp [PackageList.empty])
      · exact h1 ▸ hp.1

theorem queryComplete (mD : Dependency → Package → Bool)
    (fpM : String → String → Bool) :
    ∀ (q : PackageQuery) (L r : PackageList) (x : Package), L.WF →
    queryQ mD fpM q L = .ok r → x ∈ L.packages →
    matchesQ mD fpM q x = .ok true → x ∈ r.packages := by
  intro q
  induction q with
  | or A B ihA ihB =>
    intro L r x hWF h hxL hm
    simp only [queryQ] at h
    split at h
    · cases hA : queryQ mD fpM A L with
      | error e => rw [hA] at h; cases h
      | ok r1 =>
        rw [hA] at h
        cases hB : queryQ mD fpM B L with
        | error e => rw [hB] at h; cases h
        | ok r2 =>
          rw [hB] at h
          cases h
          have hsub1 := querySub mD fpM A L r1 hA
          have hsub2 := querySub mD fpM B L r2 hB
          show x ∈ (r2.packages.foldl PackageList.add r1).packages
          rw [mem_foldl_add_iff hWF r2.packages r1 hsub1 hsub2 x]
          simp only [matchesQ] at hm
          cases hmA : matchesQ mD fpM A x with
          | error e => rw [hmA] at hm; cases hm
          | ok b =>
            rw [hmA] at hm
            cases b with
            | true => exact Or.inl (ihA L r1 x hWF hA hxL hmA)
            | false =>
              have hmB : matchesQ mD fpM B x = .ok true := hm
              exact Or.inr (ihB L r2 x hWF hB hxL hmB)
    · exact (scan_ok_mem h x).mpr ⟨hxL, hm⟩
  | and A B ihA ihB =>
    intro L r x hWF h hxL hm
    simp only [matchesQ] at hm
    have hand : matchesQ mD fpM A x = .ok true ∧
        matchesQ mD fpM B x = .ok true := by
      cases hmA : matchesQ mD fpM A x with
      | error e => rw [hmA] at hm; cases hm
      | ok b =>
        rw [hmA] at hm
        cases b with
        | false =>
          have hcontra : (Except.ok false : Except QErr Bool) = .ok true := hm
          cases hcontra
        | true => exact ⟨rfl, hm⟩
    simp only [queryQ] at h
    split at h
    · refine (scan_ok_mem h x).mpr ⟨hxL, ?_⟩
      simp only [matchesQ]
      rw [hand.1]
      exact hand.2
    · split at h
      · cases hA : queryQ mD fpM A L with
        | error e => rw [hA] at h; cases h
        | ok r1 =>
          rw [hA] at h
          exact (scan_ok_mem h x).mpr ⟨ihA L r1 x hWF hA hxL hand.1, hand.2⟩
      · cases hB : queryQ mD fpM B L with
        | error e => rw [hB] at h; cases h
        | ok r2 =>
          rw [hB] at h
          exact (scan_ok_mem h x).mpr ⟨ihB L r2 x hWF hB hxL hand.2, hand.1⟩
  | not Q ihQ =>
    intro L r x hWF h hxL hm
    simp only [queryQ] at h
    exact (scan_ok_mem h x).mpr ⟨hxL, hm⟩
  | field f rel v =>
    intro L r x hWF h hxL hm
    simp only [queryQ] at h
    exact (scan_ok_mem h x).mpr ⟨hxL, hm⟩
  | dependency d =>
    intro L r x hWF h hxL hm
    simp only [queryQ] at h
    cases h
    simp only [matchesQ] at hm
    injection hm with hmd
    have hfil : x ∈ PackageList.search mD L d := by
      unfold PackageList.search
      exact List.mem_filter.mpr ⟨hxL, by simp [hmd]⟩
    have hsub : ∀ y ∈ PackageList.search mD L d, y ∈ L.packages :=
      fun y hy => List.mem_of_mem_filter hy
    exact (mem_foldl_add_iff hWF _ PackageList.empty
      (by simp [PackageList.empty]) hsub x).mpr (Or.inr hfil)
  | pkg n v a =>
    intro L r x hWF h hxL hm
    simp only [matchesQ] at hm
    injection hm with hmb
    simp only [Bool.and_eq_true, beq_iff_eq] at hmb
    have hkey : x.key = "P" ++ a ++ " " ++ n ++ " " ++ v :=
      key_of_triple hmb.2 hmb.1.1 hmb.1.2
    simp only [queryQ, PackageList.lookup] at h
    rw [← hkey, find?_key_of_mem hWF hxL] at h
    cases h
    show x ∈ (PackageList.empty.add x).packages
    simp [PackageList.empty, PackageList.add]

theorem querySound (mD : Dependency → Package → Bool)
    (fpM : String → String → Bool) :
    ∀ (q : PackageQuery) (L r : PackageList) (x : Package), L.WF →
    listSpaceFree L → querySpaceFree q → queryQ mD fpM q L = .ok r →
    x ∈ r.packages → matchesQ mD fpM q x ≠ .ok false := by
  intro q
  induction q with
  | or A B ihA ihB =>
    intro L r x hWF hLs hqs h hx hm
    obtain ⟨hq1, hq2⟩ : querySpaceFree A ∧ querySpaceFree B := hqs
    simp only [queryQ] at h
    split at h
    · cases hA : queryQ mD fpM A L with
      | error e => rw [hA] at h; cases h
      | ok r1 =>
        rw [hA] at h
        cases hB : queryQ mD fpM B L with
        | error e => rw [hB] at h; cases h
        | ok r2 =>
          rw [hB] at h
          cases h
          have hsub1 := querySub mD fpM A L r1 hA
          have hsub2 := querySub mD fpM B L r2 hB
          unfold PackageList.append at hx
          have hx12 :=
            (mem_foldl_add_iff hWF r2.packages r1 hsub1 hsub2 x).mp hx
          simp only [matchesQ] at hm
          cases hmA : matchesQ mD fpM A x with
          | error e => rw [hmA] at hm; cases hm
          | ok b =>
            rw [hmA] at hm
            cases b with
            | true => cases hm
            | false =>
              have hmB : matchesQ mD fpM B x = .ok false := hm
              rcases hx12 with h1 | h1
              · exact ihA L r1 x hWF hLs hq1 hA h1 hmA
              · exact ihB L r2 x hWF hLs hq2 hB h1 hmB
    · have := ((scan_ok_mem h x).mp hx).2
      rw [this] at hm
      cases hm
  | and A B ihA ihB =>
    intro L r x hWF hLs hqs h hx hm
    obtain ⟨hq1, hq2⟩ : querySpaceFree A ∧ querySpaceFree B := hqs
    simp only [queryQ] at h
    split at h
    · have := ((scan_ok_mem h x).mp hx).2
      rw [this] at hm
      cases hm
    · split at h
      · cases hA : queryQ mD fpM A L with
        | error e => rw [hA] at h; cases h
        | ok r1 =>
          rw [hA] at h
          have hsc := (scan_ok_mem h x).mp hx
          simp only [matchesQ] at hm
          cases hmA : matchesQ mD fpM A x with
          | error e => rw [hmA] at hm; cases hm
          | ok b =>
            rw [hmA] at hm
            cases b with
            | false => exact ihA L r1 x hWF hLs hq1 hA hsc.1 hmA
            | true =>
              have hm2 : matchesQ mD fpM B x = .ok false := hm
              rw [hsc.2] at hm2
              cases hm2
      · cases hB : queryQ mD fpM B L with
        | error e => rw [hB] at h; cases h
        | ok r2 =>
          rw [hB] at h
          have hsc := (scan_ok_mem h x).mp hx
          simp only [matchesQ] at hm
          rw [hsc.2] at hm
          have hm2 : matchesQ mD fpM B x = .ok false := hm
          exact ihB L r2 x hWF hLs hq2 hB hsc.1 hm2
  | not Q ihQ =>
    intro L r x hWF hLs hqs h hx hm
    simp only [queryQ] at h
    have := ((scan_ok_mem h x).mp hx).2
    rw [this] at hm
    cases hm
  | field f rel v =>
    intro L r x hWF hLs hqs h hx hm
    simp only [queryQ] at h
    have := ((scan_ok_mem h x).mp hx).2
    rw [this] at hm
    cases hm
  | dependency d =>
    intro L r x hWF hLs hqs h hx hm
    simp only [queryQ] at h
    cases h
    rcases mem_foldl_add _ _ x hx with h1 | h1
    · exact absurd h1 (by simp [PackageList.empty])
    · have hmd : mD d x = true := by
        have := (List.mem_filter.mp h1).2
        simpa using this
      simp only [matchesQ] at hm
      injection hm with hb
      rw [hmd] at hb
      cases hb
  | pkg n v a =>
    intro L r x hWF hLs hqs h hx hm
    obtain ⟨hqn, hqa⟩ : spaceFree n ∧ spaceFree a := hqs
    simp only [queryQ, PackageList.lookup] at h
    cases hfind : L.packages.find?
        (fun p => p.key == ("P" ++ a ++ " " ++ n ++ " " ++ v)) with
    | none =>
      rw [hfind] at h
      cases h
      exact absurd hx (by simp [PackageList.empty])
    | some p =>
      rw [hfind] at h
      cases h
      have hp := find?_key_eq_some hfind
      have hxp : x = p := by
        rcases mem_add_elim hx with h1 | h1
        · exact absurd h1 (by simp [PackageList.empty])
        · exact h1
      subst hxp
      obtain ⟨ha2, hn2, hv2⟩ := key_eq_triple (hLs x hp.1).1 (hLs x hp.1).2
        hqa hqn hp.2
      simp only [matchesQ] at hm
      injection hm with hb
      simp [ha2, hn2, hv2] at hb

/-! Claim theorems for the query engine. -/

/-- C1 (amended): for every query tree and every well-formed package list
whose architectures and names (and those of the query's Pkg leaves) contain
no space, whenever both the optimized execution `q.Query(L)` and the
brute-force scan of `L` by `q.Matches` return, they return the same set of
packages — regardless of which execution path `Query` took. -/
theorem c1_query_refines_scan (mD : Dependency → Package → Bool)
    (fpM : String → String → Bool) (q : PackageQuery) (L r s : PackageList)
    (hWF : L.WF) (hLs : listSpaceFree L) (hqs : querySpaceFree q)
    (hq : queryQ mD fpM q L = .ok r)
    (hs : L.scan (matchesQ mD fpM q) = .ok s) :
    ∀ x, x ∈ r.packages ↔ x ∈ s.packages := by
  intro x
  constructor
  · intro hx
    have hxL := querySub mD fpM q L r hq x hx
    obtain ⟨b, hb⟩ := scan_ok_evals hs x hxL
    have hnf := querySound mD fpM q L r x hWF hLs hqs hq hx
    have hbt : b = true := by
      cases b
      · exact absurd hb hnf
      · rfl
    subst hbt
    exact (scan_ok_mem hs x).mpr ⟨hxL, hb⟩
  · intro hx
    have hsx := (scan_ok_mem hs x).mp hx
    exact queryComplete mD fpM q L r x hWF hq hsx.1 hsx.2

/-- Witness for C1: a concrete query and list on which both paths return the
same singleton. -/
theorem c1_query_refines_scan_witness :
    (⟨"a", "1.0", "amd64", []⟩ : Package) ∈
      (⟨[⟨"a", "1.0", "amd64", []⟩]⟩ : PackageList).packages ↔
    (⟨"a", "1.0", "amd64", []⟩ : Package) ∈
      (⟨[⟨"a", "1.0", "amd64", []⟩]⟩ : PackageList).packages :=
  c1_query_refines_scan (fun _ _ => false) (fun _ _ => false)
    (.pkg "a" "1.0" "amd64") ⟨[⟨"a", "1.0", "amd64", []⟩]⟩
    ⟨[⟨"a", "1.0", "amd64", []⟩]⟩ ⟨[⟨"a", "1.0", "amd64", []⟩]⟩
    (by decide) (by decide) (by decide) (by decide) (by decide)
    ⟨"a", "1.0", "amd64", []⟩

/-- Counterexample to C1 as stated: with a space inside an architecture the
composite key aliases distinct triples, so the indexed Pkg lookup returns a
package the brute-force scan rejects.  The list is well-formed; the two
returned sets differ. -/
theorem c1_counterexample :
    queryQ (fun _ _ => false) (fun _ _ => false) (.pkg "b" "c v" "a")
      ⟨[⟨"c", "v", "a b", []⟩]⟩ = .ok ⟨[⟨"c", "v", "a b", []⟩]⟩ ∧
    PackageList.scan ⟨[⟨"c", "v", "a b", []⟩]⟩
      (matchesQ (fun _ _ => false) (fun _ _ => false) (.pkg "b" "c v" "a")) =
      .ok ⟨[]⟩ ∧
    PackageList.WF ⟨[⟨"c", "v", "a b", []⟩]⟩ ∧
    (⟨"c", "v", "a b", []⟩ : Package) ∈
      (⟨[⟨"c", "v", "a b", []⟩]⟩ : PackageList).packages ∧
    (⟨"c", "v", "a b", []⟩ : Package) ∉
      (⟨[]⟩ : PackageList).packages :=
  ⟨by decide, by decide, by decide, by decide, by decide⟩

/-- C2: the Fast truth table — `Or(A,B).Fast = A.Fast && B.Fast`,
`And(A,B).Fast = A.Fast || B.Fast`, `Not(_).Fast = false`, Field queries are
never fast, Dependency and Pkg queries always are. -/
theorem c2_fast_truth_table :
    ∀ (A B Q : PackageQuery) (f : String) (rel : Nat) (v : String)
      (d : Dependency) (n ver ar : String),
    fastQ (.or A B) = (fastQ A && fastQ B) ∧
    fastQ (.and A B) = (fastQ A || fastQ B) ∧
    fastQ (.not Q) = false ∧
    fastQ (.field f rel v) = false ∧
    fastQ (.dependency d) = true ∧
    fastQ (.pkg n ver ar) = true := by
  intro A B Q f rel v d n ver ar
  exact ⟨rfl, rfl, rfl, rfl, rfl, rfl⟩

/-- C3: Matches is a (short-circuit) boolean homomorphism — whenever the two
sides evaluate to booleans `a` and `b` at a package, And evaluates to
`a && b`, Or to `a || b` and Not to `!a`. -/
theorem c3_matches_homomorphism (mD : Dependency → Package → Bool)
    (fpM : String → String → Bool) (A B : PackageQuery) (p : Package)
    (a b : Bool) (hA : matchesQ mD fpM A p = .ok a)
    (hB : matchesQ mD fpM B p = .ok b) :
    matchesQ mD fpM (.and A B) p = .ok (a && b) ∧
    matchesQ mD fpM (.or A B) p = .ok (a || b) ∧
    matchesQ mD fpM (.not A) p = .ok (!a) := by
  refine ⟨?_, ?_, ?_⟩
  · simp only [matchesQ]
    rw [hA]
    cases a
    · simp
    · simp [hB]
  · simp only [matchesQ]
    rw [hA]
    cases a
    · simp [hB]
    · simp
  · simp only [matchesQ]
    rw [hA]

/-- Witness for C3 at a concrete pair of queries and package. -/
theorem c3_matches_homomorphism_witness :
    matchesQ (fun _ _ => false) (fun _ _ => false)
      (.and (.pkg "a" "1" "x") (.not (.pkg "a" "1" "x")))
      ⟨"a", "1", "x", []⟩ = .ok (true && false) ∧
    matchesQ (fun _ _ => false) (fun _ _ => false)
      (.or (.pkg "a" "1" "x") (.not (.pkg "a" "1" "x")))
      ⟨"a", "1", "x", []⟩ = .ok (true || false) ∧
    matchesQ (fun _ _ => false) (fun _ _ => false)
      (.not (.pkg "a" "1" "x")) ⟨"a", "1", "x", []⟩ = .ok (!true) :=
  c3_matches_homomorphism (fun _ _ => false) (fun _ _ => false)
    (.pkg "a" "1" "x") (.not (.pkg "a" "1" "x")) ⟨"a", "1", "x", []⟩
    true false (by decide) (by decide)

/-- C6 (amended): for a field other than the special-cased `$Version`,
evaluating Field.Matches with the regexp relation fails with the
not-implemented error, with a relation outside the known set it fails with
the internal unknown-relation error, and in both situations a query over a
non-empty list aborts with that error instead of continuing. -/
theorem c6_relation_errors (mD : Dependency → Package → Bool)
    (fpM : String → String → Bool) (f v : String) (p : Package)
    (L : PackageList) (rel : Nat) (hf : f ≠ "$Version")
    (hrel : VersionRegexp < rel) (hL : L.packages ≠ []) :
    fieldMatches mD fpM f VersionRegexp v p = .error .notImplemented ∧
    fieldMatches mD fpM f rel v p = .error .unknownRelation ∧
    queryQ mD fpM (.field f VersionRegexp v) L = .error .notImplemented ∧
    queryQ mD fpM (.field f rel v) L = .error .unknownRelation := by
  have hfv : (f == "$Version") = false := beq_eq_false_iff_ne.mpr hf
  have h7 : 7 < rel := by simpa [VersionRegexp] using hrel
  have h1 : ∀ x : Package,
      fieldMatches mD fpM f VersionRegexp v x = .error .notImplemented := by
    intro x
    simp [fieldMatches, hfv, VersionRegexp, VersionEqual, VersionDontCare,
      VersionGreater, VersionGreaterOrEqual, VersionLess, VersionLessOrEqual,
      VersionPatternMatch]
  have h2 : ∀ x : Package,
      fieldMatches mD fpM f rel v x = .error .unknownRelation := by
    intro x
    have e0 : (rel == 0) = false := beq_eq_false_iff_ne.mpr (by omega)
    have e1 : (rel == 1) = false := beq_eq_false_iff_ne.mpr (by omega)
    have e2 : (rel == 2) = false := beq_eq_false_iff_ne.mpr (by omega)
    have e3 : (rel == 3) = false := beq_eq_false_iff_ne.mpr (by omega)
    have e4 : (rel == 4) = false := beq_eq_false_iff_ne.mpr (by omega)
    have e5 : (rel == 5) = false := beq_eq_false_iff_ne.mpr (by omega)
    have e6 : (rel == 6) = false := beq_eq_false_iff_ne.mpr (by omega)
    have e7 : (rel == 7) = false := beq_eq_false_iff_ne.mpr (by omega)
    simp [fieldMatches, hfv, VersionRegexp, VersionEqual, VersionDontCare,
      VersionGreater, VersionGreaterOrEqual, VersionLess, VersionLessOrEqual,
      VersionPatternMatch, e0, e1, e2, e3, e4, e5, e6, e7]
  have hscan : ∀ (g : Package → Except QErr Bool) (e : QErr),
      (∀ x : Package, g x = .error e) →
      L.scan g = .error e := by
    intro g e hg
    cases hMp : L.packages with
    | nil => exact absurd hMp hL
    | cons p2 rest =>
      unfold PackageList.scan
      rw [hMp]
      simp only [scanList, hg p2]
  refine ⟨h1 p, h2 p, ?_, ?_⟩
  · simp only [queryQ]
    exact hscan _ _ (fun x => by simp only [matchesQ]; exact h1 x)
  · simp only [queryQ]
    exact hscan _ _ (fun x => by simp only [matchesQ]; exact h2 x)

/-- Witness for C6 at a concrete field query, relation 8 and a one-package
list. -/
theorem c6_relation_errors_witness :
    fieldMatches (fun _ _ => false) (fun _ _ => false) "Name" VersionRegexp
      "x" ⟨"a", "1", "amd64", []⟩ = .error .notImplemented ∧
    fieldMatches (fun _ _ => false) (fun _ _ => false) "Name" 8 "x"
      ⟨"a", "1", "amd64", []⟩ = .error .unknownRelation ∧
    queryQ (fun _ _ => false) (fun _ _ => false)
      (.field "Name" VersionRegexp "x") ⟨[⟨"a", "1", "amd64", []⟩]⟩ =
      .error .notImplemented ∧
    queryQ (fun _ _ => false) (fun _ _ => false) (.field "Name" 8 "x")
      ⟨[⟨"a", "1", "amd64", []⟩]⟩ = .error .unknownRelation :=
  c6_relation_errors (fun _ _ => false) (fun _ _ => false) "Name" "x"
    ⟨"a", "1", "amd64", []⟩ ⟨[⟨"a", "1", "amd64", []⟩]⟩ 8 (by decide)
    (by decide) (by decide)

/-- Counterexample to C6 as stated: with the special-cased field `$Version`
the regexp relation does not fail — the evaluation returns before the
relation switch, delegating to the boolean dependency-match collaborator. -/
theorem c6_counterexample :
    fieldMatches (fun _ _ => true) (fun _ _ => false) "$Version"
      VersionRegexp "1.0" ⟨"a", "1", "amd64", []⟩ = .ok true := by
  decide

/-- C9 (amended): Pkg(name, version, arch).Matches compares the exact
triple, so an architecture-"all" package never matches a Pkg query naming a
different architecture even though the wildcard rule would accept it; and,
for space-free names and architectures, the Pkg Query map lookup returns
exactly the list members with that exact triple. -/
theorem c9_pkg_exact (mD : Dependency → Package → Bool)
    (fpM : String → String → Bool) (n v a : String) (L res : PackageList)
    (x : Package) (hWF : L.WF) (hLs : listSpaceFree L) (hn : spaceFree n)
    (ha : spaceFree a) (hres : queryQ mD fpM (.pkg n v a) L = .ok res) :
    matchesQ mD fpM (.pkg n v a) x =
      .ok (x.name == n && x.version == v && x.architecture == a) ∧
    (x.architecture = "all" → a ≠ "all" →
      matchesQ mD fpM (.pkg n v a) x = .ok false ∧
      matchesArchitecture x a = true) ∧
    (∀ r ∈ res.packages,
      r ∈ L.packages ∧ r.name = n ∧ r.version = v ∧ r.architecture = a) ∧
    (∀ r ∈ L.packages, r.name = n → r.version = v → r.architecture = a →
      r ∈ res.packages) := by
  refine ⟨rfl, ?_, ?_, ?_⟩
  · intro hall hnea
    constructor
    · simp only [matchesQ]
      have harf : (x.architecture == a) = false :=
        beq_eq_false_iff_ne.mpr (by rw [hall]; exact fun hc => hnea hc.symm)
      simp [harf]
    · simp [matchesArchitecture, hall]
  · intro r hr
    simp only [queryQ, PackageList.lookup] at hres
    cases hfind : L.packages.find?
        (fun p => p.key == ("P" ++ a ++ " " ++ n ++ " " ++ v)) with
    | none =>
      rw [hfind] at hres
      cases hres
      exact absurd hr (by simp [PackageList.empty])
    | some p =>
      rw [hfind] at hres
      cases hres
      have hp := find?_key_eq_some hfind
      have hrp : r = p := by
        rcases mem_add_elim hr with h1 | h1
        · exact absurd h1 (by simp [PackageList.empty])
        · exact h1
      subst hrp
      obtain ⟨ha2, hn2, hv2⟩ := key_eq_triple (hLs r hp.1).1 (hLs r hp.1).2
        ha hn hp.2
      exact ⟨hp.1, hn2, hv2, ha2⟩
  · intro r hrL hrn hrv hra
    refine queryComplete mD fpM (.pkg n v a) L res r hWF hres hrL ?_
    simp [matchesQ, hrn, hrv, hra]

/-- Witness for C9 at a concrete list holding one "all" package and one
"amd64" package, queried for the "amd64" one. -/
theorem c9_pkg_exact_witness :
    (matchesQ (fun _ _ => false) (fun _ _ => false)
      (.pkg "a" "1" "amd64") ⟨"a", "1", "all", []⟩ =
      .ok (("a" : String) == "a" && ("1" : String) == "1" &&
        ("all" : String) == "amd64")) ∧
    (("all" : String) = "all" → ("amd64" : String) ≠ "all" →
      matchesQ (fun _ _ => false) (fun _ _ => false)
        (.pkg "a" "1" "amd64") ⟨"a", "1", "all", []⟩ = .ok false ∧
      matchesArchitecture ⟨"a", "1", "all", []⟩ "amd64" = true) ∧
    (∀ r ∈ (⟨[⟨"a", "1", "amd64", []⟩]⟩ : PackageList).packages,
      r ∈ (⟨[⟨"a", "1", "all", []⟩, ⟨"a", "1", "amd64", []⟩]⟩ :
        PackageList).packages ∧
      r.name = "a" ∧ r.version = "1" ∧ r.architecture = "amd64") ∧
    (∀ r ∈ (⟨[⟨"a", "1", "all", []⟩, ⟨"a", "1", "amd64", []⟩]⟩ :
        PackageList).packages,
      r.name = "a" → r.version = "1" → r.architecture = "amd64" →
      r ∈ (⟨[⟨"a", "1", "amd64", []⟩]⟩ : PackageList).packages) :=
  c9_pkg_exact (fun _ _ => false) (fun _ _ => false) "a" "1" "amd64"
    ⟨[⟨"a", "1", "all", []⟩, ⟨"a", "1", "amd64", []⟩]⟩
    ⟨[⟨"a", "1", "amd64", []⟩]⟩ ⟨"a", "1", "all", []⟩ (by decide)
    (by decide) (by decide) (by decide) (by decide)

/-- Counterexample to C9 as stated: with a space inside the stored package's
name, the composite-key lookup finds a package whose triple differs from the
query's — the map lookup does not find "only the exact triple". -/
theorem c9_counterexample :
    queryQ (fun _ _ => false) (fun _ _ => false) (.pkg "q" "w x" "y")
      ⟨[⟨"q w", "x", "y", []⟩]⟩ = .ok ⟨[⟨"q w", "x", "y", []⟩]⟩ ∧
    (⟨"q w", "x", "y", []⟩ : Package).name ≠ "q" ∧
    matchesQ (fun _ _ => false) (fun _ _ => false) (.pkg "q" "w x" "y")
      ⟨"q w", "x", "y", []⟩ = .ok false :=
  ⟨by decide, by decide, by decide⟩

/-! Publish pipeline lemmas and claim theorems. -/

theorem mkDir_files (fs : FS) (d : String) : (fs.mkDir d).files = fs.files := by
  unfold FS.mkDir
  split <;> rfl

theorem mkDir_poolLinks (fs : FS) (d : String) :
    (fs.mkDir d).poolLinks = fs.poolLinks := by
  unfold FS.mkDir
  split <;> rfl

theorem mem_mkDir_self (fs : FS) (d : String) : d ∈ (fs.mkDir d).dirs := by
  unfold FS.mkDir
  split
  · assumption
  · simp

theorem mem_mkDir_mono (fs : FS) (d x : String) (h : x ∈ fs.dirs) :
    x ∈ (fs.mkDir d).dirs := by
  unfold FS.mkDir
  split
  · exact h
  · exact List.mem_append_left _ h

theorem architectures_ne_nil {l : PackageList} (h : l.packages ≠ []) :
    l.architectures ≠ [] := by
  cases hc : l.packages with
  | nil => exact absurd hc h
  | cons p rest =>
    intro hcon
    have hmem : p.architecture ∈ l.architectures := by
      unfold PackageList.architectures
      refine List.mem_dedup.mpr ?_
      rw [hc]
      exact List.mem_map_of_mem _ (List.mem_cons_self _ _)
    rw [hcon] at hmem
    cases hmem

theorem publish_error_state (cks : String → ChecksumInfo) (now : String)
    (coll : String → Option Package) (sgn : Signer) (pr : PublishedRepo)
    (fs : FS) (e : PubError)
    (he : (publish cks now coll sgn pr fs).2 = .error e) :
    (publish cks now coll sgn pr fs).1 = publishDirsFS pr fs := by
  cases hm : newPackageListFromRefList pr.snapshot.refList coll with
  | error r => simp [publish, hm]
  | ok l =>
    by_cases h0 : (l.len == 0) = true
    · simp [publish, hm, h0]
    · by_cases h1 : ((inferArchs pr l).length == 0) = true
      · simp [publish, hm, h0, h1]
      · exfalso
        simp [publish, hm, h0, h1] at he

/-- C4: when the snapshot materializes to an empty package list, Publish
fails with the empty-repository error; the filesystem keeps only the two
opening directory creations, so no Release file (indeed no file at all) and
no pool link is written. -/
theorem c4_empty_repo (cks : String → ChecksumInfo) (now : String)
    (coll : String → Option Package) (sgn : Signer) (pr : PublishedRepo)
    (fs : FS) (l : PackageList)
    (hm : newPackageListFromRefList pr.snapshot.refList coll = .ok l)
    (hl : l.packages = []) :
    publish cks now coll sgn pr fs =
      (publishDirsFS pr fs, .error .emptyRepo) ∧
    (publishDirsFS pr fs).files = fs.files ∧
    (publishDirsFS pr fs).poolLinks = fs.poolLinks := by
  refine ⟨?_, ?_, ?_⟩
  · simp [publish, PackageList.len, hm, hl]
  · simp [publishDirsFS, mkDir_files]
  · simp [publishDirsFS, mkDir_poolLinks]

/-- Witness for C4: publishing an empty snapshot concretely. -/
theorem c4_empty_repo_witness :
    publish (fun _ => ⟨1, "m", "s", "t"⟩) "now" (fun _ => none)
      ⟨fun c => c, fun c => c⟩ ⟨"r", "d", "main", none, ⟨"u", []⟩⟩
      ⟨[], [], []⟩ =
      (publishDirsFS ⟨"r", "d", "main", none, ⟨"u", []⟩⟩ ⟨[], [], []⟩,
        .error .emptyRepo) ∧
    (publishDirsFS ⟨"r", "d", "main", none, ⟨"u", []⟩⟩ ⟨[], [], []⟩).files =
      (⟨[], [], []⟩ : FS).files ∧
    (publishDirsFS ⟨"r", "d", "main", none, ⟨"u", []⟩⟩
        ⟨[], [], []⟩).poolLinks = (⟨[], [], []⟩ : FS).poolLinks :=
  c4_empty_repo (fun _ => ⟨1, "m", "s", "t"⟩) "now" (fun _ => none)
    ⟨fun c => c, fun c => c⟩ ⟨"r", "d", "main", none, ⟨"u", []⟩⟩
    ⟨[], [], []⟩ ⟨[]⟩ rfl rfl

/-- C5: when no explicit architecture list was supplied it is inferred as
the union of architectures present in the materialized list (and then a
non-empty materialized list always yields a non-empty inferred list, so the
publish proceeds with exactly that list); an empty resolved list — explicit
or inferred — fails with the missing-architectures error before any
per-architecture work, leaving only the two opening directories. -/
theorem c5_arch_inference (cks : String → ChecksumInfo) (now : String)
    (coll : String → Option Package) (sgn : Signer) (pr : PublishedRepo)
    (fs : FS) (l : PackageList)
    (hm : newPackageListFromRefList pr.snapshot.refList coll = .ok l)
    (hne : l.packages ≠ []) :
    (pr.architectures = none → inferArchs pr l = l.architectures) ∧
    (inferArchs pr l = [] →
      publish cks now coll sgn pr fs =
        (publishDirsFS pr fs, .error .noArchitectures) ∧
      (publishDirsFS pr fs).files = fs.files ∧
      (publishDirsFS pr fs).poolLinks = fs.poolLinks) ∧
    (pr.architectures = none →
      (publish cks now coll sgn pr fs).2.map PublishResult.archList =
        .ok l.architectures) := by
  have hlen : (l.len == 0) = false := by
    rw [beq_eq_false_iff_ne]
    simp only [PackageList.len, ne_eq, List.length_eq_zero]
    exact hne
  refine ⟨?_, ?_, ?_⟩
  · intro h
    simp [inferArchs, h]
  · intro hA
    refine ⟨?_, ?_, ?_⟩
    · simp [publish, hm, hlen, hA]
    · simp [publishDirsFS, mkDir_files]
    · simp [publishDirsFS, mkDir_poolLinks]
  · intro h
    have harch : inferArchs pr l = l.architectures := by simp [inferArchs, h]
    have hA2 : l.architectures ≠ [] := architectures_ne_nil hne
    simp [publish, hm, hlen, harch, hA2, Except.map]

/-- Witness for C5: an explicit empty architecture list fails with the
missing-architectures error, concretely. -/
theorem c5_arch_inference_witness :
    ((⟨"r", "d", "main", some [], ⟨"u", ["x"]⟩⟩ :
        PublishedRepo).architectures = none →
      inferArchs ⟨"r", "d", "main", some [], ⟨"u", ["x"]⟩⟩
        ⟨[⟨"a", "1", "amd64", []⟩]⟩ =
      PackageList.architectures ⟨[⟨"a", "1", "amd64", []⟩]⟩) ∧
    (inferArchs ⟨"r", "d", "main", some [], ⟨"u", ["x"]⟩⟩
        ⟨[⟨"a", "1", "amd64", []⟩]⟩ = [] →
      publish (fun _ => ⟨1, "m", "s", "t"⟩) "now"
        (fun r => if r == "x" then some ⟨"a", "1", "amd64", []⟩ else none)
        ⟨fun c => c, fun c => c⟩ ⟨"r", "d", "main", some [], ⟨"u", ["x"]⟩⟩
        ⟨[], [], []⟩ =
        (publishDirsFS ⟨"r", "d", "main", some [], ⟨"u", ["x"]⟩⟩
          ⟨[], [], []⟩, .error .noArchitectures) ∧
      (publishDirsFS ⟨"r", "d", "main", some [], ⟨"u", ["x"]⟩⟩
        ⟨[], [], []⟩).files = (⟨[], [], []⟩ : FS).files ∧
      (publishDirsFS ⟨"r", "d", "main", some [], ⟨"u", ["x"]⟩⟩
        ⟨[], [], []⟩).poolLinks = (⟨[], [], []⟩ : FS).poolLinks) ∧
    ((⟨"r", "d", "main", some [], ⟨"u", ["x"]⟩⟩ :
        PublishedRepo).architectures = none →
      (publish (fun _ => ⟨1, "m", "s", "t"⟩) "now"
        (fun r => if r == "x" then some ⟨"a", "1", "amd64", []⟩ else none)
        ⟨fun c => c, fun c => c⟩ ⟨"r", "d", "main", some [], ⟨"u", ["x"]⟩⟩
        ⟨[], [], []⟩).2.map PublishResult.archList =
      .ok (PackageList.architectures ⟨[⟨"a", "1", "amd64", []⟩]⟩)) :=
  c5_arch_inference (fun _ => ⟨1, "m", "s", "t"⟩) "now"
    (fun r => if r == "x" then some ⟨"a", "1", "amd64", []⟩ else none)
    ⟨fun c => c, fun c => c⟩ ⟨"r", "d", "main", some [], ⟨"u", ["x"]⟩⟩
    ⟨[], [], []⟩ ⟨[⟨"a", "1", "amd64", []⟩]⟩ rfl (by decide)

/-- C10: Publish creates the pool and distribution directories before
materializing or validating anything, so whenever it returns one of its
errors those two directories are present in the final state. -/
theorem c10_dirs_created (cks : String → ChecksumInfo) (now : String)
    (coll : String → Option Package) (sgn : Signer) (pr : PublishedRepo)
    (fs : FS) (e : PubError)
    (h : (publish cks now coll sgn pr fs).2 = .error e) :
    joinPath pr.root "pool" ∈ (publish cks now coll sgn pr fs).1.dirs ∧
    pubBasePath pr ∈ (publish cks now coll sgn pr fs).1.dirs := by
  rw [publish_error_state cks now coll sgn pr fs e h]
  unfold publishDirsFS
  exact ⟨mem_mkDir_mono _ _ _ (mem_mkDir_self fs _), mem_mkDir_self _ _⟩

/-- Witness for C10: an unresolvable reference fails, with both directories
created. -/
theorem c10_dirs_created_witness :
    joinPath "r" "pool" ∈
      (publish (fun _ => ⟨1, "m", "s", "t"⟩) "now" (fun _ => none)
        ⟨fun c => c, fun c => c⟩ ⟨"r", "d", "main", none, ⟨"u", ["zz"]⟩⟩
        ⟨[], [], []⟩).1.dirs ∧
    pubBasePath ⟨"r", "d", "main", none, ⟨"u", ["zz"]⟩⟩ ∈
      (publish (fun _ => ⟨1, "m", "s", "t"⟩) "now" (fun _ => none)
        ⟨fun c => c, fun c => c⟩ ⟨"r", "d", "main", none, ⟨"u", ["zz"]⟩⟩
        ⟨[], [], []⟩).1.dirs :=
  c10_dirs_created (fun _ => ⟨1, "m", "s", "t"⟩) "now" (fun _ => none)
    ⟨fun c => c, fun c => c⟩ ⟨"r", "d", "main", none, ⟨"u", ["zz"]⟩⟩
    ⟨[], [], []⟩ (.unresolvedRef "zz") (by decide)

/-! Machinery for the Release checksum-block claim: the per-architecture
relative paths are pairwise distinct (for distinct architectures), so the
generated-files map grows by exactly three fresh entries per architecture. -/

theorem ne_append_of_ne_empty (s t : String) (h : t.data ≠ []) :
    s ≠ s ++ t := by
  intro hc
  have h2 := congrArg (fun x : String => x.data.length) hc
  simp only [String.data_append, List.length_append] at h2
  exact h (List.length_eq_zero.mp (by omega))

theorem append_gz_ne_bz2 (s : String) : s ++ ".gz" ≠ s ++ ".bz2" := by
  intro hc
  have h2 := congrArg String.data hc
  simp only [String.data_append] at h2
  have h3 := List.append_cancel_left h2
  exact absurd h3 (by decide)

theorem archKey_inj (comp : String) {a1 a2 s1 s2 : String}
    (hs1 : s1 = "" ∨ s1 = ".gz" ∨ s1 = ".bz2")
    (hs2 : s2 = "" ∨ s2 = ".gz" ∨ s2 = ".bz2")
    (h : archRelPath comp a1 ++ s1 = archRelPath comp a2 ++ s2) :
    a1 = a2 ∧ s1 = s2 := by
  have hd := congrArg String.data h
  simp only [archRelPath, joinPath, String.data_append, List.append_assoc]
    at hd
  have h1 := List.append_cancel_left hd
  have h2 := List.append_cancel_left h1
  have h3 := List.append_cancel_left h2
  rcases hs1 with rfl | rfl | rfl <;> rcases hs2 with rfl | rfl | rfl
  · exact ⟨String.ext (List.append_cancel_right h3), rfl⟩
  · exact (append_tail_absurd h3 (by decide) (by decide)).elim
  · exact (append_tail_absurd h3 (by decide) (by decide)).elim
  · exact (append_tail_absurd h3.symm (by decide) (by decide)).elim
  · exact ⟨String.ext (List.append_cancel_right h3), rfl⟩
  · exact (append_tail_absurd h3 (by decide) (by decide)).elim
  · exact (append_tail_absurd h3.symm (by decide) (by decide)).elim
  · exact (append_tail_absurd h3.symm (by decide) (by decide)).elim
  · exact ⟨String.ext (List.append_cancel_right h3), rfl⟩

theorem setAssoc_fresh {α : Type} : ∀ (gf : List (String × α)) (k : String)
    (v : α), (∀ kv ∈ gf, kv.1 ≠ k) → setAssoc gf k v = gf ++ [(k, v)] := by
  intro gf
  induction gf with
  | nil => intro k v _; rfl
  | cons kv rest ih =>
    intro k v h
    have hb : (kv.1 == k) = false :=
      beq_eq_false_iff_ne.mpr (h kv (List.mem_cons_self _ _))
    simp [setAssoc, hb, ih k v (fun x hx => h x (List.mem_cons_of_mem _ hx))]

theorem processArch_gf (cks : String → ChecksumInfo) (root comp bp : String)
    (list : PackageList) (st : FS × List (String × ChecksumInfo))
    (arch : String) :
    (processArch cks root comp bp list st arch).2 =
      gfStep cks comp bp st.2 arch := by
  unfold processArch
  cases processPackages root comp arch list.packages
    ((st.1.mkDir (joinPath bp (joinPath comp ("binary-" ++ arch)))), "")
  rfl

theorem foldl_processArch_gf (cks : String → ChecksumInfo)
    (root comp bp : String) (list : PackageList) :
    ∀ (A : List String) (st : FS × List (String × ChecksumInfo)),
    (A.foldl (processArch cks root comp bp list) st).2 =
      A.foldl (gfStep cks comp bp) st.2 := by
  intro A
  induction A with
  | nil => intro st; rfl
  | cons a rest ih =>
    intro st
    rw [List.foldl_cons, List.foldl_cons, ih, processArch_gf]

theorem gfStep_fresh (cks : String → ChecksumInfo) (comp bp : String)
    (gf : List (String × ChecksumInfo)) (arch : String)
    (h : ∀ kv ∈ gf, ∀ s : String, (s = "" ∨ s = ".gz" ∨ s = ".bz2") →
      kv.1 ≠ archRelPath comp arch ++ s) :
    gfStep cks comp bp gf arch = gf ++
      [(archRelPath comp arch, cks (joinPath bp (archRelPath comp arch))),
       (archRelPath comp arch ++ ".gz",
         cks (joinPath bp (archRelPath comp arch) ++ ".gz")),
       (archRelPath comp arch ++ ".bz2",
         cks (joinPath bp (archRelPath comp arch) ++ ".bz2"))] := by
  have hgz : (".gz" : String).data ≠ [] := by decide
  have hbz : (".bz2" : String).data ≠ [] := by decide
  have h0 : ∀ kv ∈ gf, kv.1 ≠ archRelPath comp arch := by
    intro kv hkv
    have h2 := h kv hkv "" (Or.inl rfl)
    simpa using h2
  unfold gfStep
  rw [setAssoc_fresh _ _ _ h0]
  have h1 : ∀ kv ∈ gf ++ [(archRelPath comp arch,
      cks (joinPath bp (archRelPath comp arch)))],
      kv.1 ≠ archRelPath comp arch ++ ".gz" := by
    intro kv hkv
    rcases List.mem_append.mp hkv with hk | hk
    · exact h kv hk ".gz" (Or.inr (Or.inl rfl))
    · rw [List.mem_singleton.mp hk]
      exact ne_append_of_ne_empty _ _ hgz
  rw [setAssoc_fresh _ _ _ h1]
  have h2 : ∀ kv ∈ (gf ++ [(archRelPath comp arch,
      cks (joinPath bp (archRelPath comp arch)))]) ++
      [(archRelPath comp arch ++ ".gz",
        cks (joinPath bp (archRelPath comp arch) ++ ".gz"))],
      kv.1 ≠ archRelPath comp arch ++ ".bz2" := by
    intro kv hkv
    rcases List.mem_append.mp hkv with hk | hk
    · rcases List.mem_append.mp hk with hk2 | hk2
      · exact h kv hk2 ".bz2" (Or.inr (Or.inr rfl))
      · rw [List.mem_singleton.mp hk2]
        exact ne_append_of_ne_empty _ _ hbz
    · rw [List.mem_singleton.mp hk]
      exact append_gz_ne_bz2 _
  rw [setAssoc_fresh _ _ _ h2]
  simp [List.append_assoc]

theorem gf_fold_expected (cks : String → ChecksumInfo) (comp bp : String) :
    ∀ (A : List String) (gf : List (String × ChecksumInfo)), A.Nodup →
    (∀ kv ∈ gf, ∀ a ∈ A, ∀ s : String,
      (s = "" ∨ s = ".gz" ∨ s = ".bz2") → kv.1 ≠ archRelPath comp a ++ s) →
    A.foldl (gfStep cks comp bp) gf = gf ++ expectedGfiles cks comp bp A := by
  intro A
  induction A with
  | nil => intro gf _ _; simp [expectedGfiles]
  | cons a rest ih =>
    intro gf hnd hfresh
    rw [List.foldl_cons,
      gfStep_fresh cks comp bp gf a
        (fun kv hkv s hs => hfresh kv hkv a (List.mem_cons_self _ _) s hs)]
    have hnd2 := List.nodup_cons.mp hnd
    have hfresh2 : ∀ kv ∈ gf ++
        [(archRelPath comp a, cks (joinPath bp (archRelPath comp a))),
         (archRelPath comp a ++ ".gz",
           cks (joinPath bp (archRelPath comp a) ++ ".gz")),
         (archRelPath comp a ++ ".bz2",
           cks (joinPath bp (archRelPath comp a) ++ ".bz2"))],
        ∀ a2 ∈ rest, ∀ s : String,
        (s = "" ∨ s = ".gz" ∨ s = ".bz2") →
        kv.1 ≠ archRelPath comp a2 ++ s := by
      intro kv hkv a2 ha2 s hs
      have hane : a ≠ a2 := fun hc => hnd2.1 (hc ▸ ha2)
      rcases List.mem_append.mp hkv with hk | hk
      · exact hfresh kv hk a2 (List.mem_cons_of_mem _ ha2) s hs
      · intro hc
        have hs0 : (s = "" ∨ s = ".gz" ∨ s = ".bz2") := hs
        simp only [List.mem_cons, List.not_mem_nil, or_false] at hk
        rcases hk with hk1 | hk1 | hk1
        · rw [hk1] at hc
          have hkey : archRelPath comp a ++ "" = archRelPath comp a2 ++ s :=
            by simpa using hc
          exact hane
            (archKey_inj comp (Or.inl rfl) hs0 hkey).1
        · rw [hk1] at hc
          exact hane
            (archKey_inj comp (Or.inr (Or.inl rfl)) hs0 hc).1
        · rw [hk1] at hc
          exact hane
            (archKey_inj comp (Or.inr (Or.inr rfl)) hs0 hc).1
    rw [ih (gf ++ _) hnd2.2 hfresh2]
    simp [expectedGfiles, List.append_assoc]

theorem expectedGfiles_length (cks : String → ChecksumInfo)
    (comp bp : String) : ∀ A : List String,
    (expectedGfiles cks comp bp A).length = 3 * A.length := by
  intro A
  induction A with
  | nil => rfl
  | cons a rest ih =>
    simp only [expectedGfiles, List.length_cons, ih]
    omega

theorem stanzaGetD_set_same : ∀ (st : Stanza) (k v : String),
    stanzaGetD (stanzaSet st k v) k = v := by
  intro st
  induction st with
  | nil => intro k v; simp [stanzaSet, stanzaGetD, List.find?]
  | cons kv rest ih =>
    intro k v
    simp only [stanzaSet]
    split
    · unfold stanzaGetD
      rw [List.find?_cons_of_pos _ (by simp)]
    · rename_i hkv
      have hb : (kv.1 == k) = false := by simpa using hkv
      unfold stanzaGetD
      rw [List.find?_cons_of_neg _ (by simp [hb])]
      exact ih k v

theorem stanzaGetD_set_other : ∀ (st : Stanza) (k k2 v : String), k2 ≠ k →
    stanzaGetD (stanzaSet st k v) k2 = stanzaGetD st k2 := by
  intro st
  induction st with
  | nil =>
    intro k k2 v h
    have hb : (k == k2) = false := beq_eq_false_iff_ne.mpr (Ne.symm h)
    simp [stanzaSet, stanzaGetD, List.find?, hb]
  | cons kv rest ih =>
    intro k k2 v h
    simp only [stanzaSet]
    split
    · rename_i hkv
      have hk1 : kv.1 = k := by simpa using hkv
      have hb : (k == k2) = false := beq_eq_false_iff_ne.mpr (Ne.symm h)
      have hb2 : (kv.1 == k2) = false := by rw [hk1]; exact hb
      unfold stanzaGetD
      rw [List.find?_cons_of_neg _ (by simp [hb]),
        List.find?_cons_of_neg _ (by simp [hb2])]
    · by_cases hk2 : (kv.1 == k2) = true
      · unfold stanzaGetD
        rw [List.find?_cons_of_pos _ (by simp [hk2]),
          List.find?_cons_of_pos _ (by simp [hk2])]
      · have hb2 : (kv.1 == k2) = false := by simpa using hk2
        unfold stanzaGetD
        rw [List.find?_cons_of_neg _ (by simp [hb2]),
          List.find?_cons_of_neg _ (by simp [hb2])]
        exact ih k k2 v h

theorem release_fold : ∀ (gf : List (String × ChecksumInfo)) (st : Stanza),
    (stanzaGetD (gf.foldl releaseStep st) "MD5Sum" =
      stanzaGetD st "MD5Sum" ++ concatLines
        (gf.map (fun pi => checksumLine pi.2.md5 pi.2.size pi.1))) ∧
    (stanzaGetD (gf.foldl releaseStep st) "SHA1" =
      stanzaGetD st "SHA1" ++ concatLines
        (gf.map (fun pi => checksumLine pi.2.sha1 pi.2.size pi.1))) ∧
    (stanzaGetD (gf.foldl releaseStep st) "SHA256" =
      stanzaGetD st "SHA256" ++ concatLines
        (gf.map (fun pi => checksumLine pi.2.sha256 pi.2.size pi.1))) := by
  intro gf
  induction gf with
  | nil => intro st; simp [concatLines]
  | cons pi rest ih =>
    intro st
    obtain ⟨ihm, ihs1, ihs2⟩ := ih (releaseStep st pi)
    have hstep1 : stanzaGetD (releaseStep st pi) "MD5Sum" =
        stanzaGetD st "MD5Sum" ++ checksumLine pi.2.md5 pi.2.size pi.1 := by
      unfold releaseStep
      rw [stanzaGetD_set_other _ _ _ _ (by decide),
        stanzaGetD_set_other _ _ _ _ (by decide), stanzaGetD_set_same]
    have hstep2 : stanzaGetD (releaseStep st pi) "SHA1" =
        stanzaGetD st "SHA1" ++ checksumLine pi.2.sha1 pi.2.size pi.1 := by
      unfold releaseStep
      rw [stanzaGetD_set_other _ _ _ _ (by decide), stanzaGetD_set_same,
        stanzaGetD_set_other _ _ _ _ (by decide)]
    have hstep3 : stanzaGetD (releaseStep st pi) "SHA256" =
        stanzaGetD st "SHA256" ++ checksumLine pi.2.sha256 pi.2.size pi.1 := by
      unfold releaseStep
      rw [stanzaGetD_set_same, stanzaGetD_set_other _ _ _ _ (by decide),
        stanzaGetD_set_other _ _ _ _ (by decide)]
    refine ⟨?_, ?_, ?_⟩
    · rw [List.foldl_cons, ihm, hstep1]
      simp [concatLines, String.append_assoc]
    · rw [List.foldl_cons, ihs1, hstep2]
      simp [concatLines, String.append_assoc]
    · rw [List.foldl_cons, ihs2, hstep3]
      simp [concatLines, String.append_assoc]

theorem buildRelease_blocks (root dist comp now : String)
    (archs : List String) (gf : List (String × ChecksumInfo)) :
    (stanzaGetD (buildRelease root dist comp now archs gf) "MD5Sum" =
      "\n" ++ concatLines
        (gf.map (fun pi => checksumLine pi.2.md5 pi.2.size pi.1))) ∧
    (stanzaGetD (buildRelease root dist comp now archs gf) "SHA1" =
      "\n" ++ concatLines
        (gf.map (fun pi => checksumLine pi.2.sha1 pi.2.size pi.1))) ∧
    (stanzaGetD (buildRelease root dist comp now archs gf) "SHA256" =
      "\n" ++ concatLines
        (gf.map (fun pi => checksumLine pi.2.sha256 pi.2.size pi.1))) := by
  unfold buildRelease
  obtain ⟨hm, h1, h2⟩ := release_fold gf
    (stanzaSet (stanzaSet (stanzaSet (stanzaSet (stanzaSet (stanzaSet
      (stanzaSet (stanzaSet (stanzaSet (stanzaSet [] "Origin"
        (root ++ " " ++ dist)) "Label" (root ++ " " ++ dist)) "Codename"
        dist) "Date" now) "Components" comp) "Architectures"
        (String.intercalate " " archs)) "Description"
        "Generated by aptly\n") "MD5Sum" "\n") "SHA1" "\n") "SHA256" "\n")
  refine ⟨?_, ?_, ?_⟩
  · rw [hm, stanzaGetD_set_other _ _ _ _ (by decide),
      stanzaGetD_set_other _ _ _ _ (by decide), stanzaGetD_set_same]
  · rw [h1, stanzaGetD_set_other _ _ _ _ (by decide), stanzaGetD_set_same]
  · rw [h2, stanzaGetD_set_same]

theorem dedupWithin_mem : ∀ (A P : List String) (x : String),
    x ∈ dedupWithin P A ↔ (x ∈ A ∧ x ∉ P) := by
  intro A
  induction A with
  | nil => intro P x; simp [dedupWithin]
  | cons a rest ih =>
    intro P x
    by_cases ha : a ∈ P
    · have hd : dedupWithin P (a :: rest) = dedupWithin P rest := by
        simp [dedupWithin, ha]
      rw [hd, ih P x]
      simp only [List.mem_cons]
      constructor
      · rintro ⟨hx, hp⟩
        exact ⟨Or.inr hx, hp⟩
      · rintro ⟨hx | hx, hp⟩
        · subst hx
          exact absurd ha hp
        · exact ⟨hx, hp⟩
    · have hd : dedupWithin P (a :: rest) =
          a :: dedupWithin (P ++ [a]) rest := by
        simp [dedupWithin, ha]
      rw [hd]
      simp only [List.mem_cons, ih (P ++ [a]) x]
      constructor
      · rintro (rfl | ⟨hx, hp⟩)
        · exact ⟨Or.inl rfl, ha⟩
        · exact ⟨Or.inr hx, fun hc => hp (List.mem_append_left _ hc)⟩
      · rintro ⟨rfl | hx, hp⟩
        · exact Or.inl rfl
        · by_cases hxa : x = a
          · exact Or.inl hxa
          · refine Or.inr ⟨hx, ?_⟩
            intro hc
            rcases List.mem_append.mp hc with h1 | h1
            · exact hp h1
            · exact hxa (List.mem_singleton.mp h1)

theorem dedupWithin_nodup : ∀ (A P : List String),
    (dedupWithin P A).Nodup := by
  intro A
  induction A with
  | nil => intro P; simp [dedupWithin]
  | cons a rest ih =>
    intro P
    by_cases ha : a ∈ P
    · have hd : dedupWithin P (a :: rest) = dedupWithin P rest := by
        simp [dedupWithin, ha]
      rw [hd]
      exact ih P
    · have hd : dedupWithin P (a :: rest) =
          a :: dedupWithin (P ++ [a]) rest := by
        simp [dedupWithin, ha]
      rw [hd, List.nodup_cons]
      refine ⟨?_, ih (P ++ [a])⟩
      intro hc
      exact ((dedupWithin_mem rest (P ++ [a]) a).mp hc).2
        (List.mem_append_right _ (List.mem_singleton.mpr rfl))

theorem setAssoc_eq_self {α : Type} : ∀ (gf : List (String × α))
    (k : String) (v : α), gf.find? (fun kv => kv.1 == k) = some (k, v) →
    setAssoc gf k v = gf := by
  intro gf
  induction gf with
  | nil => intro k v h; cases h
  | cons kv rest ih =>
    intro k v h
    by_cases hb : (kv.1 == k) = true
    · have hfind : List.find? (fun kv2 => kv2.1 == k) (kv :: rest) =
          some kv := List.find?_cons_of_pos _ hb
      rw [hfind] at h
      have hkv : kv = (k, v) := Option.some.inj h
      simp [setAssoc, hb, hkv]
    · have hb2 : (kv.1 == k) = false := by simpa using hb
      have hfind : List.find? (fun kv2 => kv2.1 == k) (kv :: rest) =
          List.find? (fun kv2 => kv2.1 == k) rest :=
        List.find?_cons_of_neg _ (by simp [hb2])
      rw [hfind] at h
      simp [setAssoc, hb2, ih k v h]

theorem expectedGfiles_append (cks : String → ChecksumInfo)
    (comp bp : String) : ∀ (P Q : List String),
    expectedGfiles cks comp bp (P ++ Q) =
      expectedGfiles cks comp bp P ++ expectedGfiles cks comp bp Q := by
  intro P Q
  induction P with
  | nil => simp [expectedGfiles]
  | cons p rest ih => simp [expectedGfiles, ih]

theorem expectedGfiles_key_mem (cks : String → ChecksumInfo)
    (comp bp : String) : ∀ (P : List String) (kv : String × ChecksumInfo),
    kv ∈ expectedGfiles cks comp bp P → ∃ p ∈ P, ∃ s2 : String,
    (s2 = "" ∨ s2 = ".gz" ∨ s2 = ".bz2") ∧
    kv.1 = archRelPath comp p ++ s2 := by
  intro P
  induction P with
  | nil =>
    intro kv h
    simp [expectedGfiles] at h
  | cons p rest ih =>
    intro kv h
    simp only [expectedGfiles, List.mem_cons] at h
    rcases h with rfl | rfl | rfl | h
    · exact ⟨p, List.mem_cons_self _ _, "", Or.inl rfl, by simp⟩
    · exact ⟨p, List.mem_cons_self _ _, ".gz", Or.inr (Or.inl rfl), rfl⟩
    · exact ⟨p, List.mem_cons_self _ _, ".bz2", Or.inr (Or.inr rfl), rfl⟩
    · obtain ⟨q, hq, s2, hs2, hk⟩ := ih kv h
      exact ⟨q, List.mem_cons_of_mem _ hq, s2, hs2, hk⟩

theorem expectedGfiles_find_plain (cks : String → ChecksumInfo)
    (comp bp : String) : ∀ (P : List String) (a : String), a ∈ P →
    (expectedGfiles cks comp bp P).find?
        (fun kv => kv.1 == archRelPath comp a) =
      some (archRelPath comp a, cks (joinPath bp (archRelPath comp a))) := by
  intro P
  induction P with
  | nil => intro a ha; cases ha
  | cons p rest ih =>
    intro a ha
    by_cases hpa : p = a
    · subst hpa
      simp only [expectedGfiles]
      rw [List.find?_cons_of_pos _ (by simp)]
    · have ha2 : a ∈ rest := by
        rcases List.mem_cons.mp ha with h | h
        · exact absurd h.symm hpa
        · exact h
      simp only [expectedGfiles]
      rw [List.find?_cons_of_neg _ ?neg1, List.find?_cons_of_neg _ ?neg2,
        List.find?_cons_of_neg _ ?neg3]
      · exact ih a ha2
      case neg1 =>
        simp only [beq_iff_eq]
        intro he
        exact hpa (archKey_inj comp (Or.inl rfl) (Or.inl rfl)
          (by simpa using he)).1
      case neg2 =>
        simp only [beq_iff_eq]
        intro he
        exact hpa (archKey_inj comp (Or.inr (Or.inl rfl)) (Or.inl rfl)
          (by simpa using he)).1
      case neg3 =>
        simp only [beq_iff_eq]
        intro he
        exact hpa (archKey_inj comp (Or.inr (Or.inr rfl)) (Or.inl rfl)
          (by simpa using he)).1

theorem expectedGfiles_find_gz (cks : String → ChecksumInfo)
    (comp bp : String) : ∀ (P : List String) (a : String), a ∈ P →
    (expectedGfiles cks comp bp P).find?
        (fun kv => kv.1 == archRelPath comp a ++ ".gz") =
      some (archRelPath comp a ++ ".gz",
        cks (joinPath bp (archRelPath comp a) ++ ".gz")) := by
  intro P
  induction P with
  | nil => intro a ha; cases ha
  | cons p rest ih =>
    intro a ha
    by_cases hpa : p = a
    · subst hpa
      simp only [expectedGfiles]
      rw [List.find?_cons_of_neg _ ?negp, List.find?_cons_of_pos _ (by simp)]
      case negp =>
        simp only [beq_iff_eq]
        exact ne_append_of_ne_empty _ _ (by decide)
    · have ha2 : a ∈ rest := by
        rcases List.mem_cons.mp ha with h | h
        · exact absurd h.symm hpa
        · exact h
      simp only [expectedGfiles]
      rw [List.find?_cons_of_neg _ ?neg1, List.find?_cons_of_neg _ ?neg2,
        List.find?_cons_of_neg _ ?neg3]
      · exact ih a ha2
      case neg1 =>
        simp only [beq_iff_eq]
        intro he
        exact hpa (archKey_inj comp (Or.inl rfl) (Or.inr (Or.inl rfl))
          (by simpa using he)).1
      case neg2 =>
        simp only [beq_iff_eq]
        intro he
        exact hpa (archKey_inj comp (Or.inr (Or.inl rfl))
          (Or.inr (Or.inl rfl)) he).1
      case neg3 =>
        simp only [beq_iff_eq]
        intro he
        exact hpa (archKey_inj comp (Or.inr (Or.inr rfl))
          (Or.inr (Or.inl rfl)) he).1

theorem expectedGfiles_find_bz2 (cks : String → ChecksumInfo)
    (comp bp : String) : ∀ (P : List String) (a : String), a ∈ P →
    (expectedGfiles cks comp bp P).find?
        (fun kv => kv.1 == archRelPath comp a ++ ".bz2") =
      some (archRelPath comp a ++ ".bz2",
        cks (joinPath bp (archRelPath comp a) ++ ".bz2")) := by
  intro P
  induction P with
  | nil => intro a ha; cases ha
  | cons p rest ih =>
    intro a ha
    by_cases hpa : p = a
    · subst hpa
      simp only [expectedGfiles]
      rw [List.find?_cons_of_neg _ ?negp, List.find?_cons_of_neg _ ?negq,
        List.find?_cons_of_pos _ (by simp)]
      case negp =>
        simp only [beq_iff_eq]
        exact ne_append_of_ne_empty _ _ (by decide)
      case negq =>
        simp only [beq_iff_eq]
        exact append_gz_ne_bz2 _
    · have ha2 : a ∈ rest := by
        rcases List.mem_cons.mp ha with h | h
        · exact absurd h.symm hpa
        · exact h
      simp only [expectedGfiles]
      rw [List.find?_cons_of_neg _ ?neg1, List.find?_cons_of_neg _ ?neg2,
        List.find?_cons_of_neg _ ?neg3]
      · exact ih a ha2
      case neg1 =>
        simp only [beq_iff_eq]
        intro he
        exact hpa (archKey_inj comp (Or.inl rfl) (Or.inr (Or.inr rfl))
          (by simpa using he)).1
      case neg2 =>
        simp only [beq_iff_eq]
        intro he
        exact hpa (archKey_inj comp (Or.inr (Or.inl rfl))
          (Or.inr (Or.inr rfl)) he).1
      case neg3 =>
        simp only [beq_iff_eq]
        intro he
        exact hpa (archKey_inj comp (Or.inr (Or.inr rfl))
          (Or.inr (Or.inr rfl)) he).1

/-- Re-processing an architecture whose three entries are already present
re-inserts the same key/value pairs, leaving the generated-files map
unchanged: this is why a duplicated architecture contributes nothing. -/
theorem gfStep_absorb (cks : String → ChecksumInfo) (comp bp : String)
    (P : List String) (a : String) (ha : a ∈ P) :
    gfStep cks comp bp (expectedGfiles cks comp bp P) a =
      expectedGfiles cks comp bp P := by
  unfold gfStep
  rw [setAssoc_eq_self _ _ _ (expectedGfiles_find_plain cks comp bp P a ha),
    setAssoc_eq_self _ _ _ (expectedGfiles_find_gz cks comp bp P a ha),
    setAssoc_eq_self _ _ _ (expectedGfiles_find_bz2 cks comp bp P a ha)]

/-- The generated-files fold over an arbitrary architecture list, with an
arbitrary already-processed prefix: fresh architectures append their three
entries, duplicates are absorbed. -/
theorem gf_fold_general (cks : String → ChecksumInfo) (comp bp : String) :
    ∀ (A P : List String),
    A.foldl (gfStep cks comp bp) (expectedGfiles cks comp bp P) =
      expectedGfiles cks comp bp (P ++ dedupWithin P A) := by
  intro A
  induction A with
  | nil => intro P; simp [dedupWithin]
  | cons a rest ih =>
    intro P
    rw [List.foldl_cons]
    by_cases ha : a ∈ P
    · rw [gfStep_absorb cks comp bp P a ha, ih P]
      have hd : dedupWithin P (a :: rest) = dedupWithin P rest := by
        simp [dedupWithin, ha]
      rw [hd]
    · have hfresh : ∀ kv ∈ expectedGfiles cks comp bp P, ∀ s : String,
          (s = "" ∨ s = ".gz" ∨ s = ".bz2") →
          kv.1 ≠ archRelPath comp a ++ s := by
        intro kv hkv s hs hc
        obtain ⟨q, hq, s2, hs2, hk⟩ :=
          expectedGfiles_key_mem cks comp bp P kv hkv
        rw [hk] at hc
        exact ha ((archKey_inj comp hs2 hs hc).1 ▸ hq)
      rw [gfStep_fresh cks comp bp _ a hfresh]
      have hstep : expectedGfiles cks comp bp P ++
          [(archRelPath comp a, cks (joinPath bp (archRelPath comp a))),
           (archRelPath comp a ++ ".gz",
             cks (joinPath bp (archRelPath comp a) ++ ".gz")),
           (archRelPath comp a ++ ".bz2",
             cks (joinPath bp (archRelPath comp a) ++ ".bz2"))] =
          expectedGfiles cks comp bp (P ++ [a]) := by
        rw [expectedGfiles_append]
        simp [expectedGfiles]
      rw [hstep, ih (P ++ [a])]
      have hd : dedupWithin P (a :: rest) =
          a :: dedupWithin (P ++ [a]) rest := by
        simp [dedupWithin, ha]
      rw [hd]
      simp [List.append_assoc]

/-- C7 (amended): after any successful Publish — whether the architecture
list was explicit (possibly with duplicates) or inferred — the
generated-files map holds exactly one entry for the plain, .gz and .bz2
Packages artifact of each distinct architecture of the resolved list, in
first-occurrence order: 3 times the number of distinct architectures in
total, and each of the Release stanza's MD5Sum, SHA1 and SHA256 block
values is the initial newline followed by exactly one checksum line per
generated file. -/
theorem c7_release_checksum_entries (cks : String → ChecksumInfo)
    (now : String) (coll : String → Option Package) (sgn : Signer)
    (pr : PublishedRepo) (fs : FS) (l : PackageList)
    (hm : newPackageListFromRefList pr.snapshot.refList coll = .ok l)
    (hne : l.packages ≠ []) (hAne : inferArchs pr l ≠ []) :
    ((dedupWithin [] (inferArchs pr l)).Nodup ∧
      ∀ x, x ∈ dedupWithin [] (inferArchs pr l) ↔ x ∈ inferArchs pr l) ∧
    (publish cks now coll sgn pr fs).2.map PublishResult.generatedFiles =
      .ok (expectedGfiles cks pr.component (pubBasePath pr)
        (dedupWithin [] (inferArchs pr l))) ∧
    (expectedGfiles cks pr.component (pubBasePath pr)
      (dedupWithin [] (inferArchs pr l))).length =
      3 * (dedupWithin [] (inferArchs pr l)).length ∧
    (publish cks now coll sgn pr fs).2.map
        (fun o => stanzaGetD o.release "MD5Sum") =
      .ok ("\n" ++ concatLines
        ((expectedGfiles cks pr.component (pubBasePath pr)
          (dedupWithin [] (inferArchs pr l))).map
          (fun pi => checksumLine pi.2.md5 pi.2.size pi.1))) ∧
    (publish cks now coll sgn pr fs).2.map
        (fun o => stanzaGetD o.release "SHA1") =
      .ok ("\n" ++ concatLines
        ((expectedGfiles cks pr.component (pubBasePath pr)
          (dedupWithin [] (inferArchs pr l))).map
          (fun pi => checksumLine pi.2.sha1 pi.2.size pi.1))) ∧
    (publish cks now coll sgn pr fs).2.map
        (fun o => stanzaGetD o.release "SHA256") =
      .ok ("\n" ++ concatLines
        ((expectedGfiles cks pr.component (pubBasePath pr)
          (dedupWithin [] (inferArchs pr l))).map
          (fun pi => checksumLine pi.2.sha256 pi.2.size pi.1))) := by
  have hlen : (l.len == 0) = false := by
    rw [beq_eq_false_iff_ne]
    simp only [PackageList.len, ne_eq, List.length_eq_zero]
    exact hne
  have hgf : ((inferArchs pr l).foldl
      (processArch cks pr.root pr.component (pubBasePath pr) l)
      (publishDirsFS pr fs, ([] : List (String × ChecksumInfo)))).2 =
      expectedGfiles cks pr.component (pubBasePath pr)
        (dedupWithin [] (inferArchs pr l)) := by
    rw [foldl_processArch_gf]
    have h := gf_fold_general cks pr.component (pubBasePath pr)
      (inferArchs pr l) []
    simpa [expectedGfiles] using h
  have hpub : (publish cks now coll sgn pr fs).2 =
      .ok ⟨buildRelease pr.root pr.distribution pr.component now
          (inferArchs pr l)
          (expectedGfiles cks pr.component (pubBasePath pr)
            (dedupWithin [] (inferArchs pr l))),
        expectedGfiles cks pr.component (pubBasePath pr)
          (dedupWithin [] (inferArchs pr l)), inferArchs pr l⟩ := by
    simp [publish, hm, hlen, hAne, hgf]
  obtain ⟨hb1, hb2, hb3⟩ := buildRelease_blocks pr.root pr.distribution
    pr.component now (inferArchs pr l)
    (expectedGfiles cks pr.component (pubBasePath pr)
      (dedupWithin [] (inferArchs pr l)))
  refine ⟨⟨dedupWithin_nodup _ _, fun x => ?_⟩,
    ?_, expectedGfiles_length cks pr.component (pubBasePath pr) _,
    ?_, ?_, ?_⟩
  · rw [dedupWithin_mem]
    simp
  · rw [hpub]
    rfl
  · rw [hpub]
    simp only [Except.map]
    rw [hb1]
  · rw [hpub]
    simp only [Except.map]
    rw [hb2]
  · rw [hpub]
    simp only [Except.map]
    rw [hb3]

/-- Witness for C7: an inferred-architecture publish (nil architecture
list) of a one-package snapshot, all hypotheses discharged concretely. -/
theorem c7_release_checksum_entries_witness :
    (publish (fun _ => ⟨1, "m", "s", "t"⟩) "now"
      (fun r => if r == "x" then some ⟨"a", "1", "amd64", []⟩ else none)
      ⟨fun c => c, fun c => c⟩
      ⟨"r", "d", "main", none, ⟨"u", ["x"]⟩⟩
      ⟨[], [], []⟩).2.map PublishResult.generatedFiles =
      .ok (expectedGfiles (fun _ => ⟨1, "m", "s", "t"⟩) "main"
        (pubBasePath ⟨"r", "d", "main", none, ⟨"u", ["x"]⟩⟩)
        (dedupWithin []
          (inferArchs ⟨"r", "d", "main", none, ⟨"u", ["x"]⟩⟩
            ⟨[⟨"a", "1", "amd64", []⟩]⟩))) ∧
    (expectedGfiles (fun _ => ⟨1, "m", "s", "t"⟩) "main"
      (pubBasePath ⟨"r", "d", "main", none, ⟨"u", ["x"]⟩⟩)
      (dedupWithin []
        (inferArchs ⟨"r", "d", "main", none, ⟨"u", ["x"]⟩⟩
          ⟨[⟨"a", "1", "amd64", []⟩]⟩))).length =
      3 * (dedupWithin []
        (inferArchs ⟨"r", "d", "main", none, ⟨"u", ["x"]⟩⟩
          ⟨[⟨"a", "1", "amd64", []⟩]⟩)).length :=
  ⟨(c7_release_checksum_entries (fun _ => ⟨1, "m", "s", "t"⟩) "now"
      (fun r => if r == "x" then some ⟨"a", "1", "amd64", []⟩ else none)
      ⟨fun c => c, fun c => c⟩ ⟨"r", "d", "main", none, ⟨"u", ["x"]⟩⟩
      ⟨[], [], []⟩ ⟨[⟨"a", "1", "amd64", []⟩]⟩ rfl (by decide)
      (by decide)).2.1,
    (c7_release_checksum_entries (fun _ => ⟨1, "m", "s", "t"⟩) "now"
      (fun r => if r == "x" then some ⟨"a", "1", "amd64", []⟩ else none)
      ⟨fun c => c, fun c => c⟩ ⟨"r", "d", "main", none, ⟨"u", ["x"]⟩⟩
      ⟨[], [], []⟩ ⟨[⟨"a", "1", "amd64", []⟩]⟩ rfl (by decide)
      (by decide)).2.2.1⟩

/-- Counterexample to C7 as stated: with the duplicated explicit
architecture list ["amd64", "amd64"] the Go map keeps one entry per path,
so the blocks hold 3 entries, not 3 × 2. -/
theorem c7_counterexample :
    (publish (fun _ => ⟨1, "m", "s", "t"⟩) "now"
      (fun r => if r == "x" then some ⟨"a", "1", "amd64", []⟩ else none)
      ⟨fun c => c, fun c => c⟩
      ⟨"r", "d", "main", some ["amd64", "amd64"], ⟨"u", ["x"]⟩⟩
      ⟨[], [], []⟩).2.map (fun o => o.generatedFiles.length) = .ok 3 ∧
    3 ≠ 3 * (["amd64", "amd64"] : List String).length :=
  ⟨by decide, by decide⟩

end Aptly
